import Mathlib

/-!
Verification model of `socow_vector<T, SMALL_SIZE>` (src/socow-vector.h), a
small-object copy-on-write vector.

The heap of reference-counted buffers (`large_data_header` records) is made
explicit as a `Store`: a partial map from buffer ids to buffers together with a
fresh-id counter (modelling `operator new` returning a fresh address).  A
container (`Vec`) holds its logical element count (the masked `size_` field)
and its representation: either the inline array (`Rep.small`, the live prefix
of `small_data`) or a reference to a heap buffer (`Rep.large`, the
`large_data` pointer).  The small/large tag bit of `size_` is the `Rep`
constructor.

Element copies are modelled twice, exactly as the source behaves in the two
regimes of interest:
* the pure model (`push_back`, `erase`, `swap`, ...) corresponds to runs in
  which every element copy succeeds and produces an equal value;
* the fallible model (`push_backF`, `safe_init_arrayF`, ...) threads a fuel
  counter through the element-copy operation: the copy numbered `fuel` is the
  one that throws.  Errors carry the exception value and the sequence of
  destructor calls (`destruct_array`) performed during unwinding.
-/

set_option maxHeartbeats 1000000

namespace Socow

/-- Heap buffer: `large_data_header` with `capacity_`, `refcnt` and the live
prefix of the trailing element array `data_` (only constructed elements are
represented). -/
structure Buf (α : Type) where
  capacity : Nat
  refcnt : Nat
  elems : List α

/-- Pointwise update of a buffer map. -/
def updBufs {α : Type} (f : Nat → Option (Buf α)) (i : Nat) (b : Option (Buf α)) :
    Nat → Option (Buf α) :=
  fun j => if j = i then b else f j

/-- The heap: allocated buffers indexed by id, plus a fresh-id counter
(`operator new` yields address `next`). -/
structure Store (α : Type) where
  next : Nat
  bufs : Nat → Option (Buf α)

/-- Buffer at id `i`, defaulting to a dummy when unallocated. -/
def bufAt {α : Type} (st : Store α) (i : Nat) : Buf α :=
  (st.bufs i).getD ⟨0, 0, []⟩

/-- Whether a buffer is allocated at id `i`. -/
def hasBuf {α : Type} (st : Store α) (i : Nat) : Bool :=
  (st.bufs i).isSome

/-- Live elements of the buffer at id `i`. -/
def elemsAt {α : Type} (st : Store α) (i : Nat) : List α :=
  (bufAt st i).elems

/-- `capacity_` field of the buffer at id `i`. -/
def capAt {α : Type} (st : Store α) (i : Nat) : Nat :=
  (bufAt st i).capacity

/-- `refcnt` field of the buffer at id `i`. -/
def refcntAt {α : Type} (st : Store α) (i : Nat) : Nat :=
  (bufAt st i).refcnt

/-- `alloc_large_data(src, size, capacity)` in the all-copies-succeed regime:
a fresh buffer with `refcnt = 1` holding a copy of the `size` live source
elements (`src` is that live list). -/
def alloc_large_data {α : Type} (st : Store α) (src : List α) (cap : Nat) :
    Store α × Nat :=
  (⟨st.next + 1, updBufs st.bufs st.next (some ⟨cap, 1, src⟩)⟩, st.next)

/-- `release_large_data`: decrement the refcount; at zero the elements are
destructed and the allocation is returned (`operator delete`), i.e. the id is
removed from the store. -/
def release_large_data {α : Type} (st : Store α) (i : Nat) : Store α :=
  match st.bufs i with
  | none => st
  | some b =>
    if b.refcnt ≤ 1 then ⟨st.next, updBufs st.bufs i none⟩
    else ⟨st.next, updBufs st.bufs i (some ⟨b.capacity, b.refcnt - 1, b.elems⟩)⟩

/-- `make_new_ref`: increment the refcount of buffer `i`. -/
def make_new_ref {α : Type} (st : Store α) (i : Nat) : Store α :=
  match st.bufs i with
  | none => st
  | some b => ⟨st.next, updBufs st.bufs i (some ⟨b.capacity, b.refcnt + 1, b.elems⟩)⟩

/-- Placement-construct one more element at the end of buffer `i`
(`new (data_ + size) T(value)`). -/
def push_elem {α : Type} (st : Store α) (i : Nat) (x : α) : Store α :=
  match st.bufs i with
  | none => st
  | some b => ⟨st.next, updBufs st.bufs i (some ⟨b.capacity, b.refcnt, b.elems ++ [x]⟩)⟩

/-- Replace the live elements of buffer `i` (the net effect of an in-place
mutation sequence on a uniquely owned buffer). -/
def set_elems {α : Type} (st : Store α) (i : Nat) (es : List α) : Store α :=
  match st.bufs i with
  | none => st
  | some b => ⟨st.next, updBufs st.bufs i (some ⟨b.capacity, b.refcnt, es⟩)⟩

/-- Active representation: the union { `small_data`, `large_data` } together
with the tag bit of `size_`. -/
inductive Rep (α : Type) where
  | small (elems : List α)
  | large (id : Nat)

/-- A `socow_vector` value: `count` is `size_ & ~STATE_BIT`, and `rep` is the
active union member (its constructor is the state bit). -/
structure Vec (α : Type) where
  count : Nat
  rep : Rep α

/-- `size()`. -/
def size {α : Type} (v : Vec α) : Nat := v.count

/-- `is_small()`. -/
def is_small {α : Type} (v : Vec α) : Bool :=
  match v.rep with
  | .small _ => true
  | .large _ => false

/-- `capacity()`: `SMALL_SIZE` when small, else the buffer's `capacity_`. -/
def capacity {α : Type} (S : Nat) (st : Store α) (v : Vec α) : Nat :=
  match v.rep with
  | .small _ => S
  | .large i => capAt st i

/-- Observable content: the live element sequence read through
`operator[] const` / `data() const`. -/
def obs {α : Type} (st : Store α) (v : Vec α) : List α :=
  match v.rep with
  | .small es => es
  | .large i => elemsAt st i

/-- `is_unique()`: small, or the buffer's refcount is 1. -/
def is_unique {α : Type} (st : Store α) (v : Vec α) : Bool :=
  match v.rep with
  | .small _ => true
  | .large i => refcntAt st i == 1

/-- Copy constructor: deep-copy the inline elements when small
(`safe_init_array`, all copies succeeding), share the buffer when large
(`make_new_ref`). -/
def copy_ctor {α : Type} (st : Store α) (v : Vec α) : Store α × Vec α :=
  match v.rep with
  | .small es => (st, ⟨v.count, .small es⟩)
  | .large i => (make_new_ref st i, ⟨v.count, .large i⟩)

/-- Destructor: destruct inline elements (no heap effect), or release the
shared buffer. -/
def destroy {α : Type} (st : Store α) (v : Vec α) : Store α :=
  match v.rep with
  | .small _ => st
  | .large i => release_large_data st i

/-- Mutable `data()`: the privatization checkpoint.  When the buffer is
shared, allocate a same-capacity copy of the live elements, release the old
reference, and rebind. -/
def data {α : Type} (st : Store α) (v : Vec α) : Store α × Vec α :=
  match v.rep with
  | .small _ => (st, v)
  | .large i =>
    if refcntAt st i = 1 then (st, v)
    else
      let a := alloc_large_data st (elemsAt st i) (capAt st i)
      (release_large_data a.1 i, ⟨v.count, .large a.2⟩)

/-- An in-place mutation of the live elements performed through mutable
`data()`: privatize, then transform the element sequence in place. -/
def mutate {α : Type} (st : Store α) (v : Vec α) (f : List α → List α) :
    Store α × Vec α :=
  let d := data st v
  match d.2.rep with
  | .small es => (d.1, ⟨d.2.count, .small (f es)⟩)
  | .large i => (set_elems d.1 i (f (elemsAt d.1 i)), d.2)

/-- `push_back(value)`: grow to a fresh heap buffer of capacity
`2*capacity + 1` when full (copying the live elements from the const view,
constructing `value` at the end, then destroying the old representation);
otherwise construct at the end through mutable `data()`. -/
def push_back {α : Type} (S : Nat) (st : Store α) (v : Vec α) (x : α) :
    Store α × Vec α :=
  let cur_size := v.count
  let cur_cap := capacity S st v
  if cur_size = cur_cap then
    let a := alloc_large_data st (obs st v) (2 * cur_cap + 1)
    let st2 := push_elem a.1 a.2 x
    let st3 := destroy st2 v
    (st3, ⟨cur_size + 1, .large a.2⟩)
  else
    let m := mutate st v (fun es => es ++ [x])
    (m.1, ⟨cur_size + 1, m.2.rep⟩)

/-- `pop_back()`: destruct the last live element through mutable `data()` and
decrement `size_`. -/
def pop_back {α : Type} (st : Store α) (v : Vec α) : Store α × Vec α :=
  let m := mutate st v (fun es => es.take (v.count - 1))
  (m.1, ⟨v.count - 1, m.2.rep⟩)

/-- Assignment through the mutable `operator[]`: privatize, then store `x` at
index `i`. -/
def write {α : Type} (st : Store α) (v : Vec α) (i : Nat) (x : α) :
    Store α × Vec α :=
  mutate st v (fun es => es.set i x)

/-- `std::swap(es[i], es[j])` on the element sequence. -/
def swapAt {α : Type} (es : List α) (i j : Nat) : List α :=
  match es.get? i, es.get? j with
  | some a, some b => (es.set i b).set j a
  | _, _ => es

/-- The rotation loop of `insert`: `for (; wpos != pos; wpos--)
std::swap(*wpos, *(wpos - 1))`, with `target` the insertion index. -/
def rotate_into {α : Type} (target : Nat) : Nat → List α → List α
  | 0, es => es
  | w + 1, es =>
    if w + 1 = target then es
    else rotate_into target w (swapAt es (w + 1) w)

/-- `insert(pos, value)` with `index = pos - begin()`: `push_back(value)`
followed by the pairwise-exchange rotation; returns the resulting index. -/
def insert {α : Type} (S : Nat) (st : Store α) (v : Vec α) (index : Nat) (x : α) :
    Store α × Vec α × Nat :=
  let p := push_back S st v x
  let m := mutate p.1 p.2 (fun es => rotate_into index v.count es)
  (m.1, m.2, index)

/-- The shifting loop of `erase`: starting at `pos`, repeatedly
`std::swap(*pos, *(pos - len))`, tracking the `res` iterator (`pos - len` at
the last executed iteration); `k` is the number of remaining iterations. -/
def erase_loop {α : Type} (len : Nat) : Nat → Nat → List α × Nat → List α × Nat
  | _, 0, acc => acc
  | pos, k + 1, acc => erase_loop len (pos + 1) k (swapAt acc.1 pos (pos - len), pos - len)

/-- `erase(first, last)` with `ind = first - begin()` and `len = last - first`:
privatize via `begin()`, shift the tail left by pairwise exchanges, destruct
the vacated `len` trailing slots, decrement `size_` by `len`; returns the new
state and the index of the returned iterator (`res`, initialized to `end()`,
i.e. the pre-call size). -/
def erase {α : Type} (st : Store α) (v : Vec α) (ind len : Nat) :
    Store α × Vec α × Nat :=
  let n := v.count
  let looped := erase_loop (α := α) len (ind + len) (n - (ind + len)) (obs st v, n)
  let m := mutate st v (fun es =>
    (erase_loop len (ind + len) (n - (ind + len)) (es, n)).1.take (n - len))
  (m.1, ⟨n - len, m.2.rep⟩, looped.2)

/-- `clear()`: when unique, destruct the live elements in place and reset the
count (keeping the state bit); when shared, release the reference and bind a
fresh empty buffer of the same capacity. -/
def clear {α : Type} (st : Store α) (v : Vec α) : Store α × Vec α :=
  if is_unique st v then
    match v.rep with
    | .small _ => (st, ⟨0, .small []⟩)
    | .large i => (set_elems st i [], ⟨0, .large i⟩)
  else
    match v.rep with
    | .small _ => (st, ⟨0, .small []⟩)
    | .large i =>
      let st1 := release_large_data st i
      let a := alloc_large_data st1 [] (capAt st1 i)
      (a.1, ⟨0, .large a.2⟩)

/-- `copy_to_small_data(begin, cnt)`: protect the buffer with an extra
reference, release the owned reference, copy `cnt` elements into the inline
array, then drop the protecting reference.  `src` is the list `begin` points
into. -/
def copy_to_small_data {α : Type} (st : Store α) (v : Vec α) (src : List α)
    (cnt : Nat) : Store α × Vec α :=
  match v.rep with
  | .small _ => (st, v)
  | .large i =>
    let st1 := make_new_ref st i
    let st2 := release_large_data st1 i
    let st3 := release_large_data st2 i
    (st3, ⟨v.count, .small (src.take cnt)⟩)

/-- Private `resize(new_capacity)`: move to the inline array when the request
fits (`copy_to_small_data`), otherwise build a fresh buffer of exactly the
requested capacity from mutable `data()` and destroy the old
representation. -/
def resize {α : Type} (S : Nat) (st : Store α) (v : Vec α) (new_capacity : Nat) :
    Store α × Vec α :=
  if new_capacity ≤ S then
    copy_to_small_data st v (obs st v) v.count
  else
    let d := data st v
    let a := alloc_large_data d.1 (obs d.1 d.2) new_capacity
    let st3 := destroy a.1 d.2
    (st3, ⟨v.count, .large a.2⟩)

/-- `reserve(new_capacity)`: resize when the buffer is shared and the request
exceeds the size, or when the request exceeds the capacity. -/
def reserve {α : Type} (S : Nat) (st : Store α) (v : Vec α) (n : Nat) :
    Store α × Vec α :=
  if (is_unique st v = false ∧ v.count < n) ∨ capacity S st v < n then
    resize S st v n
  else (st, v)

/-- `shrink_to_fit()`: resize to `size()` when large and the capacity
differs. -/
def shrink_to_fit {α : Type} (S : Nat) (st : Store α) (v : Vec α) :
    Store α × Vec α :=
  match v.rep with
  | .small _ => (st, v)
  | .large i => if v.count ≠ capAt st i then resize S st v v.count else (st, v)

/-- The net effect of the prefix-exchange and tail-move loops of the
inline/inline `swap` on the two live element sequences: pairwise-swap the
common prefix, then move the tail of the longer side into the shorter side's
array. -/
def smallSwapLists {α : Type} (ea eb : List α) : List α × List α :=
  let cnt := min ea.length eb.length
  let ea1 := eb.take cnt ++ ea.drop cnt
  let eb1 := ea.take cnt ++ eb.drop cnt
  if eb.length < ea.length then
    (ea1.take cnt, eb1 ++ ea1.drop cnt)
  else
    (ea1 ++ eb1.drop cnt, eb1.take cnt)

/-- Refcount traffic of the mixed (inline/shared) `swap` on the shared
buffer `j`: the temporary deep copy (`socow_vector copy(other)`), the
protect/release pair and final release inside `copy_to_small_data`, the
rebind `make_new_ref(copy.large_data)`, and the temporary's destructor. -/
def swap_mixed {α : Type} (st : Store α) (j : Nat) : Store α :=
  let st1 := make_new_ref st j
  let st2 := make_new_ref st1 j
  let st3 := release_large_data st2 j
  let st4 := release_large_data st3 j
  let st5 := make_new_ref st4 j
  release_large_data st5 j

/-- `swap(other)`: element-wise exchange when both inline, pointer/size
exchange when both shared, and the copy-then-exchange protocol in the mixed
case (the second mixed case delegates symmetrically, as `other.swap(*this)`
does). -/
def swap {α : Type} (st : Store α) (a b : Vec α) : Store α × Vec α × Vec α :=
  match a.rep, b.rep with
  | .small ea, .small eb =>
    (st, ⟨b.count, .small (smallSwapLists ea eb).1⟩,
        ⟨a.count, .small (smallSwapLists ea eb).2⟩)
  | .small ea, .large j =>
    (swap_mixed st j, ⟨b.count, .large j⟩, ⟨a.count, .small ea⟩)
  | .large i, .small eb =>
    (swap_mixed st i, ⟨b.count, .small eb⟩, ⟨a.count, .large i⟩)
  | .large i, .large j =>
    (st, ⟨b.count, .large j⟩, ⟨a.count, .large i⟩)

/-- `operator=`: copy-and-swap — build a temporary copy of the right-hand
side, exchange it with the target, and let the temporary destroy the old
value. -/
def assign {α : Type} (st : Store α) (target other : Vec α) :
    Store α × Vec α :=
  let c := copy_ctor st other
  let s := swap c.1 target c.2
  (destroy s.1 s.2.2, s.2.1)

/-- The element sequence `insert` is specified to produce. -/
def insert_spec {α : Type} (es : List α) (i : Nat) (x : α) : List α :=
  es.take i ++ x :: es.drop i

/-- Store sanity: ids at or beyond the fresh-id counter are unallocated. -/
def WFstore {α : Type} (st : Store α) : Prop :=
  ∀ i, st.next ≤ i → st.bufs i = none

/-- Representation invariant of a container: the count matches the number of
live elements; inline mode fits in `SMALL_SIZE`; shared mode references an
allocated buffer with positive refcount whose capacity bounds the count and
strictly exceeds `SMALL_SIZE`. -/
def WF {α : Type} (S : Nat) (st : Store α) (v : Vec α) : Prop :=
  match v.rep with
  | .small es => v.count = es.length ∧ v.count ≤ S
  | .large i =>
    hasBuf st i = true ∧ (bufAt st i).elems.length = v.count ∧
      v.count ≤ (bufAt st i).capacity ∧ 1 ≤ (bufAt st i).refcnt ∧
      S < (bufAt st i).capacity

instance {α : Type} (S : Nat) (st : Store α) (v : Vec α) : Decidable (WF S st v) :=
  match v with
  | ⟨c, .small es⟩ => inferInstanceAs (Decidable (c = es.length ∧ c ≤ S))
  | ⟨c, .large i⟩ =>
    inferInstanceAs (Decidable (hasBuf st i = true ∧ (bufAt st i).elems.length = c ∧
      c ≤ (bufAt st i).capacity ∧ 1 ≤ (bufAt st i).refcnt ∧ S < (bufAt st i).capacity))

/-! ### Fallible model

Element copies consume one unit of fuel; the copy performed when the fuel is
exhausted throws the exception value `e`.  So with initial fuel `i`, copies
number `0, ..., i-1` succeed and the `i`-th copy fails.  Error values carry
the propagated exception together with the trace of element destructor calls
performed during unwinding (the indices destructed, in order). -/

/-- Remaining element-copy budget. -/
abbrev Fuel := Nat

/-- One invocation of the element type's copy operation: succeeds (returning
an equal value) while fuel remains, throws `e` when it is exhausted. -/
def copyF {α ε : Type} (e : ε) (fuel : Fuel) (x : α) : Except ε (α × Fuel) :=
  match fuel with
  | 0 => .error e
  | f + 1 => .ok (x, f)

/-- `destruct_array(dst, cnt)`: the indices destructed, in order
(`cnt - 1` down to `0`). -/
def destruct_array (cnt : Nat) : List Nat :=
  (List.range cnt).reverse

/-- Loop of `safe_init_array`: copy the remaining source elements, appending
to the already-constructed prefix `acc`; on a throw, destruct the prefix in
reverse order and re-raise. -/
def safe_init_goF {α ε : Type} (e : ε) :
    Fuel → List α → List α → Except (ε × List Nat) (List α × Fuel)
  | fuel, acc, [] => .ok (acc, fuel)
  | fuel, acc, x :: rest =>
    match copyF e fuel x with
    | .error err => .error (err, destruct_array acc.length)
    | .ok (x', f) => safe_init_goF e f (acc ++ [x']) rest

/-- `safe_init_array(src, dst, cnt)` with fallible element copies; `src` is
the list of the `cnt` source elements. -/
def safe_init_arrayF {α ε : Type} (e : ε) (fuel : Fuel) (src : List α) :
    Except (ε × List Nat) (List α × Fuel) :=
  safe_init_goF e fuel [] src

/-- `alloc_large_data` with fallible element copies: `operator new`, header
construction, `safe_init_array`; on a throw the allocation is deleted before
re-raising (the returned error store holds no trace of the buffer). -/
def alloc_large_dataF {α ε : Type} (e : ε) (fuel : Fuel) (st : Store α)
    (src : List α) (cap : Nat) :
    Except (ε × List Nat × Store α) (Store α × Nat × Fuel) :=
  match safe_init_arrayF e fuel src with
  | .error (err, tr) => .error (err, tr, ⟨st.next + 1, st.bufs⟩)
  | .ok (es, f) =>
    .ok (⟨st.next + 1, updBufs st.bufs st.next (some ⟨cap, 1, es⟩)⟩, st.next, f)

/-- Mutable `data()` with fallible element copies: privatization copies the
live elements; a throw inside `alloc_large_dataF` happens before the old
reference is released, leaving the container unchanged. -/
def dataF {α ε : Type} (e : ε) (fuel : Fuel) (st : Store α) (v : Vec α) :
    Except (ε × List Nat × Store α × Vec α) (Store α × Vec α × Fuel) :=
  match v.rep with
  | .small _ => .ok (st, v, fuel)
  | .large i =>
    if refcntAt st i = 1 then .ok (st, v, fuel)
    else
      match alloc_large_dataF e fuel st (elemsAt st i) (capAt st i) with
      | .error (err, tr, st1) => .error (err, tr, st1, v)
      | .ok (st1, nid, f) =>
        .ok (release_large_data st1 i, ⟨v.count, .large nid⟩, f)

/-- Copy constructor with fallible element copies: `safe_init_array` of the
inline elements when small (a throw propagates after the reverse-order
destruction), a refcount increment — which cannot throw — when large. -/
def copy_ctorF {α ε : Type} (e : ε) (fuel : Fuel) (st : Store α) (v : Vec α) :
    Except (ε × List Nat) (Store α × Vec α × Fuel) :=
  match v.rep with
  | .small es =>
    match safe_init_arrayF e fuel es with
    | .error err => .error err
    | .ok (es', f) => .ok (st, ⟨v.count, .small es'⟩, f)
  | .large i => .ok (make_new_ref st i, ⟨v.count, .large i⟩, fuel)

/-- `push_back` with fallible element copies.  On the growth path a throw
while building the fresh buffer (or while constructing `value` at its end)
releases that buffer — destructing the already-copied elements in reverse
order — before re-raising, with the container untouched; on the in-place path
a throw during privatization or during the final construction leaves the
observable content untouched. -/
def push_backF {α ε : Type} (S : Nat) (e : ε) (fuel : Fuel) (st : Store α)
    (v : Vec α) (x : α) :
    Except (ε × List Nat × Store α × Vec α) (Store α × Vec α × Fuel) :=
  let cur_size := v.count
  let cur_cap := capacity S st v
  if cur_size = cur_cap then
    match alloc_large_dataF e fuel st (obs st v) (2 * cur_cap + 1) with
    | .error (err, tr, st1) => .error (err, tr, st1, v)
    | .ok (st1, nid, f1) =>
      match copyF e f1 x with
      | .error err =>
        .error (err, destruct_array cur_size, release_large_data st1 nid, v)
      | .ok (x', f2) =>
        let st2 := push_elem st1 nid x'
        .ok (destroy st2 v, ⟨cur_size + 1, .large nid⟩, f2)
  else
    match dataF e fuel st v with
    | .error err => .error err
    | .ok (st1, v1, f1) =>
      match copyF e f1 x with
      | .error err => .error (err, [], st1, v1)
      | .ok (x', f2) =>
        match v1.rep with
        | .small es => .ok (st1, ⟨cur_size + 1, .small (es ++ [x'])⟩, f2)
        | .large i => .ok (push_elem st1 i x', ⟨cur_size + 1, .large i⟩, f2)

/-- `std::swap(a, b)` on elements: `tmp = a; a = b; b = tmp` — three
invocations of the element copy operation. -/
def std_swapF {α ε : Type} (e : ε) (fuel : Fuel) (a b : α) :
    Except ε (α × α × Fuel) :=
  match copyF e fuel a with
  | .error err => .error err
  | .ok (tmp, f1) =>
    match copyF e f1 b with
    | .error err => .error err
    | .ok (b', f2) =>
      match copyF e f2 tmp with
      | .error err => .error err
      | .ok (a', f3) => .ok (b', a', f3)

/-- The pairwise-exchange loop over the common prefix of the two inline
arrays. -/
def prefix_swapF {α ε : Type} (e : ε) :
    Fuel → List α → List α → Except ε (List α × List α × Fuel)
  | fuel, a :: as, b :: bs =>
    match std_swapF e fuel a b with
    | .error err => .error err
    | .ok (a', b', f1) =>
      match prefix_swapF e f1 as bs with
      | .error err => .error err
      | .ok (as', bs', f2) => .ok (a' :: as', b' :: bs', f2)
  | fuel, as, bs => .ok (as, bs, fuel)

/-- The tail-move loop of the inline/inline `swap`: copy-construct the
elements of the longer side's suffix into the other array, last element
first. -/
def copy_tail_revF {α ε : Type} (e : ε) :
    Fuel → List α → Except ε (List α × Fuel)
  | fuel, [] => .ok ([], fuel)
  | fuel, x :: xs =>
    match copy_tail_revF e fuel xs with
    | .error err => .error err
    | .ok (xs', f1) =>
      match copyF e f1 x with
      | .error err => .error err
      | .ok (x', f2) => .ok (x' :: xs', f2)

/-- The inline/inline branch of `swap` with fallible element copies. -/
def swap_smallF {α ε : Type} (e : ε) (fuel : Fuel) (ea eb : List α)
    (na nb : Nat) : Except ε (List α × List α × Fuel) :=
  match prefix_swapF e fuel ea eb with
  | .error err => .error err
  | .ok (ea1, eb1, f1) =>
    let cnt := min na nb
    if nb < na then
      match copy_tail_revF e f1 (ea1.drop cnt) with
      | .error err => .error err
      | .ok (tail, f2) => .ok (ea1.take cnt, eb1 ++ tail, f2)
    else
      match copy_tail_revF e f1 (eb1.drop cnt) with
      | .error err => .error err
      | .ok (tail, f2) => .ok (ea1 ++ tail, eb1.take cnt, f2)

/-- `swap(other)` with fallible element copies.  The shared/shared branch
performs no element copies at all; the inline branches perform pairwise
exchanges and tail moves; the mixed branches copy the inline side's elements
(`copy_to_small_data`'s `safe_init_array`) with the buffer protected, a throw
restoring the original representation. -/
def swapF {α ε : Type} (e : ε) (fuel : Fuel) (st : Store α) (a b : Vec α) :
    Except ε (Store α × Vec α × Vec α × Fuel) :=
  match a.rep, b.rep with
  | .small ea, .small eb =>
    match swap_smallF e fuel ea eb a.count b.count with
    | .error err => .error err
    | .ok (ea', eb', f1) =>
      .ok (st, ⟨b.count, .small ea'⟩, ⟨a.count, .small eb'⟩, f1)
  | .small ea, .large j =>
    match safe_init_arrayF e fuel ea with
    | .error (err, _) => .error err
    | .ok (ea', f1) =>
      .ok (swap_mixed st j, ⟨b.count, .large j⟩, ⟨a.count, .small ea'⟩, f1)
  | .large i, .small eb =>
    match safe_init_arrayF e fuel eb with
    | .error (err, _) => .error err
    | .ok (eb', f1) =>
      .ok (swap_mixed st i, ⟨b.count, .small eb'⟩, ⟨a.count, .large i⟩, f1)
  | .large i, .large j =>
    .ok (st, ⟨b.count, .large j⟩, ⟨a.count, .large i⟩, fuel)

/-! ### Primitive store lemmas -/

theorem updBufs_self {α : Type} (f : Nat → Option (Buf α)) (i : Nat)
    (b : Option (Buf α)) : updBufs f i b i = b := by
  simp [updBufs]

theorem updBufs_ne {α : Type} (f : Nat → Option (Buf α)) {i j : Nat}
    (b : Option (Buf α)) (h : j ≠ i) : updBufs f i b j = f j := by
  simp [updBufs, h]

theorem alloc_fst_next {α : Type} (st : Store α) (src : List α) (cap : Nat) :
    (alloc_large_data st src cap).1.next = st.next + 1 := rfl

theorem alloc_snd {α : Type} (st : Store α) (src : List α) (cap : Nat) :
    (alloc_large_data st src cap).2 = st.next := rfl

theorem alloc_bufs_new {α : Type} (st : Store α) (src : List α) (cap : Nat) :
    (alloc_large_data st src cap).1.bufs st.next = some ⟨cap, 1, src⟩ :=
  updBufs_self _ _ _

theorem alloc_bufs_ne {α : Type} (st : Store α) (src : List α) (cap : Nat)
    {j : Nat} (h : j ≠ st.next) :
    (alloc_large_data st src cap).1.bufs j = st.bufs j :=
  updBufs_ne _ _ h

theorem release_next {α : Type} (st : Store α) (i : Nat) :
    (release_large_data st i).next = st.next := by
  unfold release_large_data
  cases h : st.bufs i with
  | none => rfl
  | some b => by_cases h1 : b.refcnt ≤ 1 <;> simp [h1]

theorem release_bufs_ne {α : Type} (st : Store α) {i j : Nat} (h : j ≠ i) :
    (release_large_data st i).bufs j = st.bufs j := by
  unfold release_large_data
  cases hb : st.bufs i with
  | none => rfl
  | some b => by_cases h1 : b.refcnt ≤ 1 <;> simp [h1, updBufs_ne _ _ h]

theorem release_bufs_self_dec {α : Type} (st : Store α) {i : Nat} {b : Buf α}
    (hb : st.bufs i = some b) (h2 : 2 ≤ b.refcnt) :
    (release_large_data st i).bufs i =
      some ⟨b.capacity, b.refcnt - 1, b.elems⟩ := by
  unfold release_large_data
  rw [hb]
  have : ¬ b.refcnt ≤ 1 := by omega
  simp [this, updBufs_self]

theorem release_bufs_self_free {α : Type} (st : Store α) {i : Nat} {b : Buf α}
    (hb : st.bufs i = some b) (h1 : b.refcnt ≤ 1) :
    (release_large_data st i).bufs i = none := by
  unfold release_large_data
  rw [hb]
  simp [h1, updBufs_self]

theorem make_new_ref_next {α : Type} (st : Store α) (i : Nat) :
    (make_new_ref st i).next = st.next := by
  unfold make_new_ref
  cases h : st.bufs i <;> rfl

theorem make_new_ref_bufs_ne {α : Type} (st : Store α) {i j : Nat} (h : j ≠ i) :
    (make_new_ref st i).bufs j = st.bufs j := by
  unfold make_new_ref
  cases hb : st.bufs i with
  | none => rfl
  | some b => simp [updBufs_ne _ _ h]

theorem make_new_ref_bufs_self {α : Type} (st : Store α) {i : Nat} {b : Buf α}
    (hb : st.bufs i = some b) :
    (make_new_ref st i).bufs i = some ⟨b.capacity, b.refcnt + 1, b.elems⟩ := by
  unfold make_new_ref
  rw [hb]
  simp [updBufs_self]

theorem push_elem_next {α : Type} (st : Store α) (i : Nat) (x : α) :
    (push_elem st i x).next = st.next := by
  unfold push_elem
  cases h : st.bufs i <;> rfl

theorem push_elem_bufs_ne {α : Type} (st : Store α) {i j : Nat} (x : α)
    (h : j ≠ i) : (push_elem st i x).bufs j = st.bufs j := by
  unfold push_elem
  cases hb : st.bufs i with
  | none => rfl
  | some b => simp [updBufs_ne _ _ h]

theorem push_elem_bufs_self {α : Type} (st : Store α) {i : Nat} {b : Buf α}
    (x : α) (hb : st.bufs i = some b) :
    (push_elem st i x).bufs i = some ⟨b.capacity, b.refcnt, b.elems ++ [x]⟩ := by
  unfold push_elem
  rw [hb]
  simp [updBufs_self]

theorem set_elems_next {α : Type} (st : Store α) (i : Nat) (es : List α) :
    (set_elems st i es).next = st.next := by
  unfold set_elems
  cases h : st.bufs i <;> rfl

theorem set_elems_bufs_ne {α : Type} (st : Store α) {i j : Nat} (es : List α)
    (h : j ≠ i) : (set_elems st i es).bufs j = st.bufs j := by
  unfold set_elems
  cases hb : st.bufs i with
  | none => rfl
  | some b => simp [updBufs_ne _ _ h]

theorem set_elems_bufs_self {α : Type} (st : Store α) {i : Nat} {b : Buf α}
    (es : List α) (hb : st.bufs i = some b) :
    (set_elems st i es).bufs i = some ⟨b.capacity, b.refcnt, es⟩ := by
  unfold set_elems
  rw [hb]
  simp [updBufs_self]

/-! ### Well-formedness preservation by the primitives -/

theorem WFstore_alloc {α : Type} {st : Store α} (h : WFstore st)
    (src : List α) (cap : Nat) : WFstore (alloc_large_data st src cap).1 := by
  intro i hi
  rw [alloc_fst_next] at hi
  rw [alloc_bufs_ne st src cap (by omega)]
  exact h i (by omega)

theorem WFstore_release {α : Type} {st : Store α} (h : WFstore st) (i : Nat) :
    WFstore (release_large_data st i) := by
  intro j hj
  rw [release_next] at hj
  by_cases hji : j = i
  · subst hji
    cases hb : st.bufs j with
    | none => unfold release_large_data; rw [hb]; exact h j hj
    | some b =>
      rw [h j hj] at hb
      exact absurd hb (by simp)
  · rw [release_bufs_ne st hji]
    exact h j hj

theorem WFstore_make_new_ref {α : Type} {st : Store α} (h : WFstore st)
    (i : Nat) : WFstore (make_new_ref st i) := by
  intro j hj
  rw [make_new_ref_next] at hj
  by_cases hji : j = i
  · subst hji
    unfold make_new_ref
    rw [h j hj]
    exact h j hj
  · rw [make_new_ref_bufs_ne st hji]
    exact h j hj

theorem WFstore_push_elem {α : Type} {st : Store α} (h : WFstore st)
    (i : Nat) (x : α) : WFstore (push_elem st i x) := by
  intro j hj
  rw [push_elem_next] at hj
  by_cases hji : j = i
  · subst hji
    unfold push_elem
    rw [h j hj]
    exact h j hj
  · rw [push_elem_bufs_ne st x hji]
    exact h j hj

theorem WFstore_set_elems {α : Type} {st : Store α} (h : WFstore st)
    (i : Nat) (es : List α) : WFstore (set_elems st i es) := by
  intro j hj
  rw [set_elems_next] at hj
  by_cases hji : j = i
  · subst hji
    unfold set_elems
    rw [h j hj]
    exact h j hj
  · rw [set_elems_bufs_ne st es hji]
    exact h j hj

theorem hasBuf_lt_next {α : Type} {st : Store α} (h : WFstore st) {i : Nat}
    (hb : hasBuf st i = true) : i < st.next := by
  by_contra hlt
  rw [hasBuf, h i (by omega)] at hb
  simp at hb

/-! ### Conversion helpers -/

theorem bufAt_eq {α : Type} {st : Store α} {i : Nat} {b : Buf α}
    (h : st.bufs i = some b) : bufAt st i = b := by
  unfold bufAt
  rw [h]
  rfl

theorem elemsAt_eq {α : Type} {st : Store α} {i : Nat} {b : Buf α}
    (h : st.bufs i = some b) : elemsAt st i = b.elems := by
  rw [elemsAt, bufAt_eq h]

theorem capAt_eq {α : Type} {st : Store α} {i : Nat} {b : Buf α}
    (h : st.bufs i = some b) : capAt st i = b.capacity := by
  rw [capAt, bufAt_eq h]

theorem refcntAt_eq {α : Type} {st : Store α} {i : Nat} {b : Buf α}
    (h : st.bufs i = some b) : refcntAt st i = b.refcnt := by
  rw [refcntAt, bufAt_eq h]

theorem hasBuf_eq_true {α : Type} {st : Store α} {i : Nat} {b : Buf α}
    (h : st.bufs i = some b) : hasBuf st i = true := by
  rw [hasBuf, h]
  rfl

theorem elemsAt_congr {α : Type} {st st' : Store α} {i : Nat}
    (h : st'.bufs i = st.bufs i) : elemsAt st' i = elemsAt st i := by
  unfold elemsAt bufAt
  rw [h]

theorem hasBuf_congr {α : Type} {st st' : Store α} {i : Nat}
    (h : st'.bufs i = st.bufs i) : hasBuf st' i = hasBuf st i := by
  unfold hasBuf
  rw [h]

theorem WF_large {α : Type} {S : Nat} {st : Store α} {v : Vec α} {i : Nat}
    (hv : WF S st v) (h : v.rep = .large i) :
    ∃ b, st.bufs i = some b ∧ b.elems.length = v.count ∧
      v.count ≤ b.capacity ∧ 1 ≤ b.refcnt ∧ S < b.capacity := by
  unfold WF at hv
  rw [h] at hv
  obtain ⟨h1, h2, h3, h4, h5⟩ := hv
  rw [hasBuf, Option.isSome_iff_exists] at h1
  obtain ⟨b, hb⟩ := h1
  refine ⟨b, hb, ?_, ?_, ?_, ?_⟩ <;> rw [← bufAt_eq hb] <;> assumption

theorem WF_small {α : Type} {S : Nat} {st : Store α} {v : Vec α} {es : List α}
    (hv : WF S st v) (h : v.rep = .small es) :
    v.count = es.length ∧ v.count ≤ S := by
  unfold WF at hv
  rw [h] at hv
  exact hv

theorem WF_of_large {α : Type} {S : Nat} {st : Store α} {v : Vec α} {i : Nat}
    {b : Buf α} (h : v.rep = .large i) (hb : st.bufs i = some b)
    (h1 : b.elems.length = v.count) (h2 : v.count ≤ b.capacity)
    (h3 : 1 ≤ b.refcnt) (h4 : S < b.capacity) : WF S st v := by
  unfold WF
  rw [h]
  exact ⟨hasBuf_eq_true hb, by rw [bufAt_eq hb]; exact h1,
    by rw [bufAt_eq hb]; exact h2, by rw [bufAt_eq hb]; exact h3,
    by rw [bufAt_eq hb]; exact h4⟩

theorem WF_of_small {α : Type} {S : Nat} {st : Store α} {v : Vec α}
    {es : List α} (h : v.rep = .small es) (h1 : v.count = es.length)
    (h2 : v.count ≤ S) : WF S st v := by
  unfold WF
  rw [h]
  exact ⟨h1, h2⟩

theorem obs_large {α : Type} {st : Store α} {v : Vec α} {i : Nat}
    (h : v.rep = .large i) : obs st v = elemsAt st i := by
  unfold obs
  rw [h]

theorem obs_small {α : Type} {st : Store α} {v : Vec α} {es : List α}
    (h : v.rep = .small es) : obs st v = es := by
  unfold obs
  rw [h]

theorem capacity_large {α : Type} {S : Nat} {st : Store α} {v : Vec α} {i : Nat}
    (h : v.rep = .large i) : capacity S st v = capAt st i := by
  unfold capacity
  rw [h]

theorem capacity_small {α : Type} {S : Nat} {st : Store α} {v : Vec α}
    {es : List α} (h : v.rep = .small es) : capacity S st v = S := by
  unfold capacity
  rw [h]

theorem obs_length {α : Type} {S : Nat} {st : Store α} {v : Vec α}
    (hv : WF S st v) : (obs st v).length = v.count := by
  cases h : v.rep with
  | small es =>
    rw [obs_small h, (WF_small hv h).1]
  | large i =>
    obtain ⟨b, hb, h1, _⟩ := WF_large hv h
    rw [obs_large h, elemsAt_eq hb, h1]

/-! ### Behaviour of mutable `data()` and of in-place mutation -/

theorem data_small {α : Type} {st : Store α} {v : Vec α} {es : List α}
    (h : v.rep = .small es) : data st v = (st, v) := by
  unfold data
  rw [h]

theorem data_large_unique {α : Type} {st : Store α} {v : Vec α} {i : Nat}
    (h : v.rep = .large i) (h1 : refcntAt st i = 1) : data st v = (st, v) := by
  unfold data
  rw [h]
  simp [h1]

theorem data_large_shared {α : Type} {st : Store α} {v : Vec α} {i : Nat}
    (h : v.rep = .large i) (h1 : ¬ refcntAt st i = 1) :
    data st v =
      (release_large_data (alloc_large_data st (elemsAt st i) (capAt st i)).1 i,
        ⟨v.count, .large st.next⟩) := by
  unfold data
  rw [h]
  simp [h1, alloc_snd]

theorem mutate_spec {α : Type} (S : Nat) {st : Store α} {v : Vec α}
    (f : List α → List α) (hst : WFstore st) (hv : WF S st v) :
    (mutate st v f).2.count = v.count ∧
    WFstore (mutate st v f).1 ∧
    st.next ≤ (mutate st v f).1.next ∧
    obs (mutate st v f).1 (mutate st v f).2 = f (obs st v) ∧
    capacity S (mutate st v f).1 (mutate st v f).2 = capacity S st v ∧
    is_small (mutate st v f).2 = is_small v ∧
    (∀ es, v.rep = .small es → (mutate st v f).2.rep = .small (f es) ∧
      (mutate st v f).1 = st) ∧
    (∀ i, v.rep = .large i → ∃ j, (mutate st v f).2.rep = .large j ∧
      (mutate st v f).1.bufs j = some ⟨capAt st i, 1, f (elemsAt st i)⟩) := by
  cases h : v.rep with
  | small es =>
    have hm : mutate st v f = (st, ⟨v.count, .small (f es)⟩) := by
      unfold mutate
      rw [data_small h]
      simp only
      rw [h]
    rw [hm]
    refine ⟨rfl, hst, le_refl _, ?_, ?_, ?_, ?_, ?_⟩
    · rw [obs_small (v := Vec.mk v.count (Rep.small (f es))) rfl, obs_small h]
    · rw [capacity_small (v := Vec.mk v.count (Rep.small (f es))) rfl,
        capacity_small (S := S) h]
    · unfold is_small
      rw [h]
    · intro es' hes'
      cases hes'
      exact ⟨rfl, rfl⟩
    · intro i hi
      exact Rep.noConfusion hi
  | large i =>
    obtain ⟨b, hb, hlen, hcap, hrc, hScap⟩ := WF_large hv h
    have hlt : i < st.next := hasBuf_lt_next hst (hasBuf_eq_true hb)
    by_cases h1 : refcntAt st i = 1
    · have hm : mutate st v f = (set_elems st i (f (elemsAt st i)), v) := by
        unfold mutate
        rw [data_large_unique h h1]
        simp only
        rw [h]
      have hset : (set_elems st i (f (elemsAt st i))).bufs i =
          some ⟨b.capacity, b.refcnt, f (elemsAt st i)⟩ :=
        set_elems_bufs_self _ _ hb
      have hrc1 : b.refcnt = 1 := by rw [refcntAt_eq hb] at h1; exact h1
      rw [hm]
      refine ⟨rfl, WFstore_set_elems hst _ _, by rw [set_elems_next], ?_, ?_, rfl,
        ?_, ?_⟩
      · rw [@obs_large _ (set_elems st i (f (elemsAt st i))) v i h,
          elemsAt_eq hset, obs_large h]
      · rw [@capacity_large _ S (set_elems st i (f (elemsAt st i))) v i h,
          capAt_eq hset, capacity_large (S := S) h, capAt_eq hb]
      · intro es' hes'
        exact Rep.noConfusion hes'
      · intro j hj
        cases hj
        exact ⟨i, h, by rw [hset, capAt_eq hb, hrc1]⟩
    · have hm : mutate st v f =
          (set_elems (release_large_data
              (alloc_large_data st (elemsAt st i) (capAt st i)).1 i) st.next
            (f (elemsAt (release_large_data
              (alloc_large_data st (elemsAt st i) (capAt st i)).1 i) st.next)),
            ⟨v.count, .large st.next⟩) := by
        unfold mutate
        rw [data_large_shared h h1]
      have hrc2 : 2 ≤ b.refcnt := by
        rw [refcntAt_eq hb] at h1
        omega
      set stA := (alloc_large_data st (elemsAt st i) (capAt st i)).1 with hstA
      have hAnew : stA.bufs st.next = some ⟨capAt st i, 1, elemsAt st i⟩ :=
        alloc_bufs_new st _ _
      have hAi : stA.bufs i = some b := by
        rw [hstA, alloc_bufs_ne st _ _ (by omega)]
        exact hb
      set stR := release_large_data stA i with hstR
      have hRnew : stR.bufs st.next = some ⟨capAt st i, 1, elemsAt st i⟩ := by
        rw [hstR, release_bufs_ne stA (by omega)]
        exact hAnew
      have hRelems : elemsAt stR st.next = elemsAt st i := by
        unfold elemsAt bufAt
        rw [hRnew]
        rfl
      have hSnew : (set_elems stR st.next (f (elemsAt stR st.next))).bufs st.next =
          some ⟨capAt st i, 1, f (elemsAt stR st.next)⟩ :=
        set_elems_bufs_self _ _ hRnew
      have hWFA : WFstore stA := WFstore_alloc hst _ _
      have hWFR : WFstore stR := WFstore_release hWFA i
      rw [hm]
      refine ⟨rfl, WFstore_set_elems hWFR _ _, ?_, ?_, ?_, ?_, ?_, ?_⟩
      · rw [set_elems_next, hstR, release_next, hstA, alloc_fst_next]
        omega
      · rw [obs_large (v := Vec.mk v.count (Rep.large st.next)) rfl,
          elemsAt_eq hSnew, obs_large h, hRelems]
      · rw [capacity_large (S := S) (v := Vec.mk v.count (Rep.large st.next)) rfl,
          capAt_eq hSnew, capacity_large (S := S) h]
      · show is_small (Vec.mk v.count (Rep.large st.next)) = is_small v
        unfold is_small
        rw [h]
      · intro es' hes'
        exact Rep.noConfusion hes'
      · intro j hj
        cases hj
        exact ⟨st.next, rfl, by rw [hSnew, hRelems]⟩

/-! ### Branch equations for the public operations -/

theorem is_unique_large {α : Type} {st : Store α} {c : Vec α} {j : Nat}
    (hc : c.rep = .large j) : is_unique st c = (refcntAt st j == 1) := by
  unfold is_unique
  rw [hc]

theorem is_unique_small {α : Type} {st : Store α} {c : Vec α} {es : List α}
    (hc : c.rep = .small es) : is_unique st c = true := by
  unfold is_unique
  rw [hc]

theorem push_back_full_eq {α : Type} (S : Nat) {st : Store α} {c : Vec α}
    (x : α) (hfull : c.count = capacity S st c) :
    push_back S st c x =
      (destroy (push_elem
          (alloc_large_data st (obs st c) (2 * capacity S st c + 1)).1
          (alloc_large_data st (obs st c) (2 * capacity S st c + 1)).2 x) c,
        ⟨c.count + 1,
          .large (alloc_large_data st (obs st c) (2 * capacity S st c + 1)).2⟩) := by
  simp only [push_back]
  rw [if_pos hfull]

theorem push_back_nonfull_eq {α : Type} (S : Nat) {st : Store α} {c : Vec α}
    (x : α) (hfull : ¬ c.count = capacity S st c) :
    push_back S st c x =
      ((mutate st c (fun es => es ++ [x])).1,
        ⟨c.count + 1, (mutate st c (fun es => es ++ [x])).2.rep⟩) := by
  simp only [push_back]
  rw [if_neg hfull]

theorem clear_small_eq {α : Type} {st : Store α} {c : Vec α} {es : List α}
    (hc : c.rep = .small es) : clear st c = (st, ⟨0, .small []⟩) := by
  unfold clear
  rw [is_unique_small hc, if_pos rfl, hc]

theorem clear_large_unique_eq {α : Type} {st : Store α} {c : Vec α} {j : Nat}
    (hc : c.rep = .large j) (h1 : refcntAt st j = 1) :
    clear st c = (set_elems st j [], ⟨0, .large j⟩) := by
  unfold clear
  rw [is_unique_large hc, h1, hc]
  simp

theorem clear_large_shared_eq {α : Type} {st : Store α} {c : Vec α} {j : Nat}
    (hc : c.rep = .large j) (h1 : ¬ refcntAt st j = 1) :
    clear st c =
      ((alloc_large_data (release_large_data st j) []
          (capAt (release_large_data st j) j)).1,
        ⟨0, .large (alloc_large_data (release_large_data st j) []
          (capAt (release_large_data st j) j)).2⟩) := by
  unfold clear
  rw [is_unique_large hc]
  have : (refcntAt st j == 1) = false := by
    simp [h1]
  rw [this, if_neg (by simp), hc]

/-! ### Frame lemmas: a mutation of one container does not disturb a buffer
it shares with another container -/

theorem mutate_frame {α : Type} {st : Store α} {c : Vec α} (f : List α → List α)
    {i0 : Nat} {b0 : Buf α} (hst : WFstore st) (hb0 : st.bufs i0 = some b0)
    (hcond : ∀ j, c.rep = .large j → j = i0 → 2 ≤ b0.refcnt) :
    (∃ b', (mutate st c f).1.bufs i0 = some b' ∧ b'.elems = b0.elems) ∧
    WFstore (mutate st c f).1 ∧
    st.next ≤ (mutate st c f).1.next ∧
    (∀ j, (mutate st c f).2.rep = .large j → j ≠ i0) := by
  have hi0 : i0 < st.next := hasBuf_lt_next hst (hasBuf_eq_true hb0)
  cases hc : c.rep with
  | small es =>
    have hm : mutate st c f = (st, ⟨c.count, .small (f es)⟩) := by
      unfold mutate
      rw [data_small hc]
      simp only
      rw [hc]
    rw [hm]
    exact ⟨⟨b0, hb0, rfl⟩, hst, le_refl _, fun j hj => Rep.noConfusion hj⟩
  | large j =>
    by_cases h1 : refcntAt st j = 1
    · have hji : j ≠ i0 := by
        intro hji
        subst hji
        have := hcond j hc rfl
        rw [refcntAt_eq hb0] at h1
        omega
      have hm : mutate st c f = (set_elems st j (f (elemsAt st j)), c) := by
        unfold mutate
        rw [data_large_unique hc h1]
        simp only
        rw [hc]
      rw [hm]
      refine ⟨⟨b0, ?_, rfl⟩, WFstore_set_elems hst _ _, by rw [set_elems_next], ?_⟩
      · rw [set_elems_bufs_ne st _ (Ne.symm hji)]
        exact hb0
      · intro j' hj'
        rw [hc] at hj'
        cases hj'
        exact hji
    · have hm : mutate st c f =
          (set_elems (release_large_data
              (alloc_large_data st (elemsAt st j) (capAt st j)).1 j) st.next
            (f (elemsAt (release_large_data
              (alloc_large_data st (elemsAt st j) (capAt st j)).1 j) st.next)),
            ⟨c.count, .large st.next⟩) := by
        unfold mutate
        rw [data_large_shared hc h1]
      set stA := (alloc_large_data st (elemsAt st j) (capAt st j)).1 with hstA
      have hAi0 : stA.bufs i0 = some b0 := by
        rw [hstA, alloc_bufs_ne st _ _ (by omega)]
        exact hb0
      set stR := release_large_data stA j with hstR
      have hRi0 : ∃ b', stR.bufs i0 = some b' ∧ b'.elems = b0.elems := by
        by_cases hji : j = i0
        · subst hji
          rcases Nat.lt_or_ge b0.refcnt 2 with hlt2 | hge2
          · exact absurd (hcond j hc rfl) (by omega)
          · refine ⟨⟨b0.capacity, b0.refcnt - 1, b0.elems⟩, ?_, rfl⟩
            rw [hstR, release_bufs_self_dec stA hAi0 hge2]
        · refine ⟨b0, ?_, rfl⟩
          rw [hstR, release_bufs_ne stA (fun h => hji h.symm)]
          exact hAi0
      obtain ⟨b', hb', hbe'⟩ := hRi0
      have hWFA : WFstore stA := WFstore_alloc hst _ _
      have hWFR : WFstore stR := WFstore_release hWFA j
      rw [hm]
      refine ⟨⟨b', ?_, hbe'⟩, WFstore_set_elems hWFR _ _, ?_, ?_⟩
      · rw [set_elems_bufs_ne stR _ (by omega)]
        exact hb'
      · rw [set_elems_next, hstR, release_next, hstA, alloc_fst_next]
        omega
      · intro j' hj'
        cases hj'
        omega

theorem push_back_frame {α : Type} (S : Nat) {st : Store α} {c : Vec α} (x : α)
    {i0 : Nat} {b0 : Buf α} (hst : WFstore st) (hb0 : st.bufs i0 = some b0)
    (hcond : ∀ j, c.rep = .large j → j = i0 → 2 ≤ b0.refcnt) :
    (∃ b', (push_back S st c x).1.bufs i0 = some b' ∧ b'.elems = b0.elems) ∧
    WFstore (push_back S st c x).1 ∧
    st.next ≤ (push_back S st c x).1.next ∧
    (∀ j, (push_back S st c x).2.rep = .large j → j ≠ i0) := by
  have hi0 : i0 < st.next := hasBuf_lt_next hst (hasBuf_eq_true hb0)
  by_cases hfull : c.count = capacity S st c
  · rw [push_back_full_eq S x hfull, alloc_snd]
    set stA := (alloc_large_data st (obs st c) (2 * capacity S st c + 1)).1
      with hstA
    have hAi0 : stA.bufs i0 = some b0 := by
      rw [hstA, alloc_bufs_ne st _ _ (by omega)]
      exact hb0
    set stP := push_elem stA st.next x with hstP
    have hPi0 : stP.bufs i0 = some b0 := by
      rw [hstP, push_elem_bufs_ne stA x (by omega)]
      exact hAi0
    have hWFA : WFstore stA := WFstore_alloc hst _ _
    have hWFP : WFstore stP := WFstore_push_elem hWFA _ _
    have hnextP : stP.next = st.next + 1 := by
      rw [hstP, push_elem_next, hstA, alloc_fst_next]
    refine ⟨?_, ?_, ?_, ?_⟩
    · cases hc : c.rep with
      | small es =>
        refine ⟨b0, ?_, rfl⟩
        unfold destroy
        rw [hc]
        exact hPi0
      | large j =>
        unfold destroy
        rw [hc]
        by_cases hji : j = i0
        · subst hji
          have hge2 := hcond j hc rfl
          refine ⟨⟨b0.capacity, b0.refcnt - 1, b0.elems⟩, ?_, rfl⟩
          rw [release_bufs_self_dec stP hPi0 hge2]
        · refine ⟨b0, ?_, rfl⟩
          rw [release_bufs_ne stP (fun h => hji h.symm)]
          exact hPi0
    · cases hc : c.rep with
      | small es =>
        unfold destroy
        rw [hc]
        exact hWFP
      | large j =>
        unfold destroy
        rw [hc]
        exact WFstore_release hWFP j
    · cases hc : c.rep with
      | small es =>
        unfold destroy
        rw [hc, hnextP]
        omega
      | large j =>
        unfold destroy
        rw [hc, release_next, hnextP]
        omega
    · intro j hj
      cases hj
      omega
  · rw [push_back_nonfull_eq S x hfull]
    obtain ⟨hfr, hwfs, hnext, hrep⟩ :=
      mutate_frame (fun es => es ++ [x]) hst hb0 hcond
    exact ⟨hfr, hwfs, hnext, fun j hj => hrep j hj⟩

theorem clear_frame {α : Type} {st : Store α} {c : Vec α}
    {i0 : Nat} {b0 : Buf α} (hst : WFstore st) (hb0 : st.bufs i0 = some b0)
    (hcond : ∀ j, c.rep = .large j → j = i0 → 2 ≤ b0.refcnt) :
    ∃ b', (clear st c).1.bufs i0 = some b' ∧ b'.elems = b0.elems := by
  have hi0 : i0 < st.next := hasBuf_lt_next hst (hasBuf_eq_true hb0)
  cases hc : c.rep with
  | small es =>
    rw [clear_small_eq hc]
    exact ⟨b0, hb0, rfl⟩
  | large j =>
    by_cases h1 : refcntAt st j = 1
    · have hji : j ≠ i0 := by
        intro hji
        subst hji
        have := hcond j hc rfl
        rw [refcntAt_eq hb0] at h1
        omega
      rw [clear_large_unique_eq hc h1]
      refine ⟨b0, ?_, rfl⟩
      rw [set_elems_bufs_ne st _ (Ne.symm hji)]
      exact hb0
    · rw [clear_large_shared_eq hc h1]
      set stR := release_large_data st j with hstR
      have hRi0 : ∃ b', stR.bufs i0 = some b' ∧ b'.elems = b0.elems := by
        by_cases hji : j = i0
        · subst hji
          rcases Nat.lt_or_ge b0.refcnt 2 with hlt2 | hge2
          · exact absurd (hcond j hc rfl) (by omega)
          · refine ⟨⟨b0.capacity, b0.refcnt - 1, b0.elems⟩, ?_, rfl⟩
            rw [hstR, release_bufs_self_dec st hb0 hge2]
        · refine ⟨b0, ?_, rfl⟩
          rw [hstR, release_bufs_ne st (fun h => hji h.symm)]
          exact hb0
      obtain ⟨b', hb', hbe'⟩ := hRi0
      refine ⟨b', ?_, hbe'⟩
      have hnR : i0 < stR.next := by
        rw [hstR, release_next]
        omega
      rw [alloc_bufs_ne stR _ _ (by omega)]
      exact hb'

/-- Auxiliary: reading `v`'s buffer through a store that still holds a buffer
with the same elements yields the same observable content. -/
theorem obs_eq_of_frame {α : Type} {st st' : Store α} {v : Vec α} {i0 : Nat}
    {b0 b' : Buf α} (h : v.rep = .large i0) (hb0 : st.bufs i0 = some b0)
    (hb' : st'.bufs i0 = some b') (he : b'.elems = b0.elems) :
    obs st' v = obs st v := by
  rw [obs_large h, obs_large h, elemsAt_eq hb', elemsAt_eq hb0, he]

/-- C1.  Copy-on-write value semantics: copy-construct `c` from `v`, then
apply any one of the mutating operations (`push_back`, `pop_back`, `insert`,
`erase`, `clear`, assignment through the mutable `operator[]`) to `c`; the
observable content of `v` (and hence `v.size()` and every `v[i]`) is exactly
what it was before, in both the inline and the shared representation. -/
theorem C1_cow_value_semantics {α : Type} (S : Nat) (st : Store α) (v : Vec α)
    (x y : α) (ind len i : Nat) (hst : WFstore st) (hv : WF S st v) :
    obs (push_back S (copy_ctor st v).1 (copy_ctor st v).2 x).1 v = obs st v ∧
    obs (pop_back (copy_ctor st v).1 (copy_ctor st v).2).1 v = obs st v ∧
    obs (insert S (copy_ctor st v).1 (copy_ctor st v).2 ind x).1 v = obs st v ∧
    obs (erase (copy_ctor st v).1 (copy_ctor st v).2 ind len).1 v = obs st v ∧
    obs (clear (copy_ctor st v).1 (copy_ctor st v).2).1 v = obs st v ∧
    obs (write (copy_ctor st v).1 (copy_ctor st v).2 i y).1 v = obs st v := by
  cases h : v.rep with
  | small es =>
    refine ⟨?_, ?_, ?_, ?_, ?_, ?_⟩ <;> rw [obs_small h, obs_small h]
  | large i0 =>
    obtain ⟨b, hb, hlen, hcap, hrc, hScap⟩ := WF_large hv h
    have hcc : copy_ctor st v = (make_new_ref st i0, ⟨v.count, .large i0⟩) := by
      unfold copy_ctor
      rw [h]
    set st1 := make_new_ref st i0 with hst1
    set c : Vec α := ⟨v.count, .large i0⟩ with hcdef
    set b1 : Buf α := ⟨b.capacity, b.refcnt + 1, b.elems⟩ with hb1def
    have hb1 : st1.bufs i0 = some b1 := by
      rw [hst1]
      exact make_new_ref_bufs_self st hb
    have hWF1 : WFstore st1 := WFstore_make_new_ref hst i0
    have hcond : ∀ j, c.rep = .large j → j = i0 → 2 ≤ b1.refcnt := by
      intro j _ _
      rw [hb1def]
      simp
      omega
    have hcount : ∀ st' : Store α, (∃ b', st'.bufs i0 = some b' ∧
        b'.elems = b1.elems) → obs st' v = obs st v := by
      intro st' hex
      obtain ⟨b', hb', he'⟩ := hex
      exact obs_eq_of_frame h hb hb' (by rw [he', hb1def])
    rw [hcc]
    refine ⟨?_, ?_, ?_, ?_, ?_, ?_⟩
    · exact hcount _ (push_back_frame S x hWF1 hb1 hcond).1
    · exact hcount _ (mutate_frame _ hWF1 hb1 hcond).1
    · obtain ⟨⟨b2, hb2, he2⟩, hwf2, hn2, hrep2⟩ :=
        push_back_frame S x hWF1 hb1 hcond
      have hcond2 : ∀ j, (push_back S st1 c x).2.rep = .large j → j = i0 →
          2 ≤ b2.refcnt := by
        intro j hj hji
        exact absurd hji (hrep2 j hj)
      obtain ⟨⟨b3, hb3, he3⟩, _, _, _⟩ :=
        mutate_frame (fun es => rotate_into ind c.count es) hwf2 hb2 hcond2
      exact hcount _ ⟨b3, hb3, by rw [he3, he2]⟩
    · exact hcount _ (mutate_frame _ hWF1 hb1 hcond).1
    · exact hcount _ (clear_frame hWF1 hb1 hcond)
    · exact hcount _ (mutate_frame _ hWF1 hb1 hcond).1

/-! ### Behaviour of `push_back` -/

theorem obs_rep_congr {α : Type} {st : Store α} {v w : Vec α}
    (h : v.rep = w.rep) : obs st v = obs st w := by
  unfold obs
  rw [h]

theorem capacity_rep_congr {α : Type} {S : Nat} {st : Store α} {v w : Vec α}
    (h : v.rep = w.rep) : capacity S st v = capacity S st w := by
  unfold capacity
  rw [h]

theorem is_small_rep_congr {α : Type} {v w : Vec α}
    (h : v.rep = w.rep) : is_small v = is_small w := by
  unfold is_small
  rw [h]

theorem S_le_capacity {α : Type} {S : Nat} {st : Store α} {v : Vec α}
    (hv : WF S st v) : S ≤ capacity S st v := by
  cases h : v.rep with
  | small es => rw [capacity_small h]
  | large i =>
    obtain ⟨b, hb, _, _, _, hScap⟩ := WF_large hv h
    rw [capacity_large h, capAt_eq hb]
    omega

theorem push_back_spec {α : Type} (S : Nat) {st : Store α} {v : Vec α} (x : α)
    (hst : WFstore st) (hv : WF S st v) :
    obs (push_back S st v x).1 (push_back S st v x).2 = obs st v ++ [x] ∧
    (push_back S st v x).2.count = v.count + 1 ∧
    WFstore (push_back S st v x).1 ∧
    WF S (push_back S st v x).1 (push_back S st v x).2 ∧
    (v.count = capacity S st v →
      is_small (push_back S st v x).2 = false ∧
      capacity S (push_back S st v x).1 (push_back S st v x).2 =
        2 * capacity S st v + 1) := by
  by_cases hfull : v.count = capacity S st v
  · rw [push_back_full_eq S x hfull, alloc_snd]
    set stA := (alloc_large_data st (obs st v) (2 * capacity S st v + 1)).1
      with hstA
    have hAnew : stA.bufs st.next = some ⟨2 * capacity S st v + 1, 1, obs st v⟩ :=
      alloc_bufs_new st _ _
    set stP := push_elem stA st.next x with hstP
    have hPnew : stP.bufs st.next =
        some ⟨2 * capacity S st v + 1, 1, obs st v ++ [x]⟩ := by
      rw [hstP]
      exact push_elem_bufs_self stA x hAnew
    have hWFA : WFstore stA := WFstore_alloc hst _ _
    have hWFP : WFstore stP := WFstore_push_elem hWFA _ _
    have hDnew : (destroy stP v).bufs st.next =
        some ⟨2 * capacity S st v + 1, 1, obs st v ++ [x]⟩ ∧
        WFstore (destroy stP v) := by
      unfold destroy
      cases h : v.rep with
      | small es => exact ⟨hPnew, hWFP⟩
      | large i =>
        obtain ⟨b, hb, _⟩ := WF_large hv h
        have hilt : i < st.next := hasBuf_lt_next hst (hasBuf_eq_true hb)
        constructor
        · rw [release_bufs_ne stP (by omega)]
          exact hPnew
        · exact WFstore_release hWFP i
    obtain ⟨hD, hWFD⟩ := hDnew
    refine ⟨?_, rfl, hWFD, ?_, ?_⟩
    · rw [obs_large (v := Vec.mk (v.count + 1) (Rep.large st.next)) rfl,
        elemsAt_eq hD]
    · refine WF_of_large (b := ⟨2 * capacity S st v + 1, 1, obs st v ++ [x]⟩)
        rfl hD ?_ ?_ ?_ ?_
      · simp [obs_length hv]
      · have := obs_length hv
        simp
        omega
      · simp
      · have hSc : S ≤ capacity S st v := S_le_capacity hv
        simp
        omega
    · intro _
      refine ⟨rfl, ?_⟩
      rw [capacity_large (S := S) (v := Vec.mk (v.count + 1) (Rep.large st.next))
        rfl, capAt_eq hD]
  · rw [push_back_nonfull_eq S x hfull]
    obtain ⟨hcnt, hwfs, hnext, hobs, hcap, hsm, hsmall, hlarge⟩ :=
      mutate_spec S (fun es => es ++ [x]) hst hv
    set m := mutate st v (fun es => es ++ [x]) with hm
    have hobs' : obs m.1 (⟨v.count + 1, m.2.rep⟩ : Vec α) = obs st v ++ [x] := by
      rw [obs_rep_congr (v := (⟨v.count + 1, m.2.rep⟩ : Vec α)) (w := m.2) rfl]
      exact hobs
    refine ⟨hobs', rfl, hwfs, ?_, fun hc => absurd hc hfull⟩
    cases h : v.rep with
    | small es =>
      obtain ⟨hrep, hsteq⟩ := hsmall es h
      obtain ⟨hc1, hc2⟩ := WF_small hv h
      refine @WF_of_small _ _ _ _ (es ++ [x]) ?_ ?_ ?_
      · show (⟨v.count + 1, m.2.rep⟩ : Vec α).rep = Rep.small (es ++ [x])
        rw [hrep]
      · simp
        omega
      · have hcapS : capacity S st v = S := capacity_small h
        rw [hcapS] at hfull
        show v.count + 1 ≤ S
        omega
    | large i =>
      obtain ⟨j, hrep, hbufs⟩ := hlarge i h
      obtain ⟨b, hb, hblen, hbcap, hbrc, hbScap⟩ := WF_large hv h
      have hcapEq : capacity S st v = b.capacity := by
        rw [capacity_large h, capAt_eq hb]
      refine WF_of_large (b := ⟨capAt st i, 1, elemsAt st i ++ [x]⟩)
        (i := j) ?_ hbufs ?_ ?_ ?_ ?_
      · show (⟨v.count + 1, m.2.rep⟩ : Vec α).rep = Rep.large j
        rw [hrep]
      · simp [elemsAt_eq hb, hblen]
      · simp [capAt_eq hb]
        rw [hcapEq] at hfull
        omega
      · simp
      · simp [capAt_eq hb]
        omega

/-! ### The rotation loop of `insert` -/

theorem rotate_into_zero {α : Type} (t : Nat) (es : List α) :
    rotate_into t 0 es = es := rfl

theorem rotate_into_succ {α : Type} (t w : Nat) (es : List α) :
    rotate_into t (w + 1) es =
      if w + 1 = t then es else rotate_into t w (swapAt es (w + 1) w) := rfl

theorem swapAt_length {α : Type} (es : List α) (i j : Nat) :
    (swapAt es i j).length = es.length := by
  unfold swapAt
  cases h1 : es.get? i <;> cases h2 : es.get? j <;> simp

theorem swapAt_append_left {α : Type} (l r : List α) {i j : Nat}
    (h1 : i < l.length) (h2 : j < l.length) :
    swapAt (l ++ r) i j = swapAt l i j ++ r := by
  unfold swapAt
  rw [List.get?_append h1, List.get?_append h2]
  cases ha : l.get? i <;> cases hb : l.get? j <;> try rfl
  dsimp only
  rw [List.set_append_left _ _ h1, List.set_append_left _ _ (by simp [h2])]

theorem swapAt_append_pair {α : Type} (zs : List α) (a x : α) (rest : List α) :
    swapAt (zs ++ a :: x :: rest) (zs.length + 1) zs.length =
      zs ++ x :: a :: rest := by
  have h1 : (zs ++ a :: x :: rest).get? (zs.length + 1) = some x := by
    rw [List.get?_append_right (by omega)]
    simp
  have h2 : (zs ++ a :: x :: rest).get? zs.length = some a := by
    rw [List.get?_append_right (le_refl _)]
    simp
  unfold swapAt
  rw [h1, h2]
  dsimp only
  rw [List.set_append_right _ _ (by omega),
    List.set_append_right _ _ (by omega)]
  simp

theorem rotate_into_append {α : Type} (t : Nat) :
    ∀ (w : Nat) (l r : List α), w + 1 ≤ l.length →
      rotate_into t w (l ++ r) = rotate_into t w l ++ r := by
  intro w
  induction w with
  | zero => intro l r _; rfl
  | succ w ih =>
    intro l r hlen
    by_cases ht : w + 1 = t
    · rw [rotate_into_succ, rotate_into_succ, if_pos ht, if_pos ht]
    · rw [rotate_into_succ, rotate_into_succ, if_neg ht, if_neg ht,
        swapAt_append_left l r (by omega) (by omega),
        ih (swapAt l (w + 1) w) r (by rw [swapAt_length]; omega)]

theorem rotate_into_spec {α : Type} (t : Nat) :
    ∀ (w : Nat) (ys : List α) (x : α), ys.length = w → t ≤ w →
      rotate_into t w (ys ++ [x]) = ys.take t ++ x :: ys.drop t := by
  intro w
  induction w with
  | zero =>
    intro ys x hlen ht
    have hys : ys = [] := List.eq_nil_of_length_eq_zero hlen
    subst hys
    have ht0 : t = 0 := by omega
    subst ht0
    rfl
  | succ w ih =>
    intro ys x hlen ht
    by_cases htw : t = w + 1
    · subst htw
      rw [rotate_into_succ, if_pos rfl, List.take_of_length_le (by omega),
        List.drop_eq_nil_of_le (by omega)]
    · have htle : t ≤ w := by omega
      obtain ⟨zs, a, hzs⟩ : ∃ zs a, ys = zs ++ [a] := by
        rcases List.eq_nil_or_concat ys with h | h
        · subst h
          simp at hlen
        · obtain ⟨L, b, hLb⟩ := h
          exact ⟨L, b, by rw [hLb, List.concat_eq_append]⟩
      subst hzs
      have hzslen : zs.length = w := by
        simp at hlen
        omega
      rw [rotate_into_succ, if_neg (fun h => htw h.symm)]
      have hsw : swapAt (zs ++ [a] ++ [x]) (w + 1) w = (zs ++ [x]) ++ [a] := by
        have hpair := swapAt_append_pair zs a x []
        rw [hzslen] at hpair
        simpa using hpair
      rw [hsw, rotate_into_append t w (zs ++ [x]) [a] (by simp [hzslen]),
        ih zs x hzslen htle,
        List.take_append_of_le_length (by omega),
        List.drop_append_of_le_length (by omega)]
      simp

/-! ### The shifting loop of `erase` -/

theorem erase_loop_res {α : Type} (len : Nat) :
    ∀ (k pos : Nat) (es : List α) (r : Nat),
      (erase_loop len pos k (es, r)).2 =
        if k = 0 then r else pos + k - 1 - len := by
  intro k
  induction k with
  | zero => intro pos es r; rfl
  | succ k ih =>
    intro pos es r
    show (erase_loop len (pos + 1) k (swapAt es pos (pos - len), pos - len)).2 = _
    rw [ih]
    by_cases hk : k = 0
    · subst hk
      simp
    · rw [if_neg hk, if_neg (by omega)]
      omega

theorem erase_loop_length {α : Type} (len : Nat) :
    ∀ (k pos : Nat) (es : List α) (r : Nat),
      (erase_loop len pos k (es, r)).1.length = es.length := by
  intro k
  induction k with
  | zero => intro pos es r; rfl
  | succ k ih =>
    intro pos es r
    show (erase_loop len (pos + 1) k
      (swapAt es pos (pos - len), pos - len)).1.length = _
    rw [ih, swapAt_length]

/-! ### Claim theorems (functional correctness of single operations) -/

/-- C5.  `push_back(v)`: when `count == capacity` beforehand the container
grows to a heap buffer of capacity exactly `2*capacity + 1`; in every case a
successful `push_back` increments the size by exactly 1, keeps the previously
held elements unchanged in order and value, and puts `v` last. -/
theorem C5_push_back_growth_and_content {α : Type} (S : Nat) (st : Store α)
    (v : Vec α) (x : α) (hst : WFstore st) (hv : WF S st v) :
    obs (push_back S st v x).1 (push_back S st v x).2 = obs st v ++ [x] ∧
    size (push_back S st v x).2 = size v + 1 ∧
    (size v = capacity S st v →
      is_small (push_back S st v x).2 = false ∧
      capacity S (push_back S st v x).1 (push_back S st v x).2 =
        2 * capacity S st v + 1) := by
  obtain ⟨h1, h2, _, _, h5⟩ := push_back_spec S x hst hv
  exact ⟨h1, h2, h5⟩

/-- C8.  `insert(pos, v)` at index `i` produces exactly the content of
`push_back(v)` followed by rotating the new element leftward into index `i`:
elements `[0, i)` unchanged, the element at `i` equals `v`, the former
elements `[i, n)` shifted one slot right (`insert_spec`); the returned
iterator is `begin() + i`. -/
theorem C8_insert_refines_push_back_rotate {α : Type} (S : Nat) (st : Store α)
    (v : Vec α) (ind : Nat) (x : α) (hst : WFstore st) (hv : WF S st v)
    (hind : ind ≤ size v) :
    obs (insert S st v ind x).1 (insert S st v ind x).2.1 =
      insert_spec (obs st v) ind x ∧
    size (insert S st v ind x).2.1 = size v + 1 ∧
    (insert S st v ind x).2.2 = ind := by
  obtain ⟨hobs, hcnt, hwfs, hwf, _⟩ := push_back_spec S x hst hv
  obtain ⟨mcnt, _, _, mobs, _, _, _, _⟩ :=
    mutate_spec S (fun es => rotate_into ind v.count es) hwfs hwf
  have hproj1 : (insert S st v ind x).1 =
      (mutate (push_back S st v x).1 (push_back S st v x).2
        (fun es => rotate_into ind v.count es)).1 := rfl
  have hproj2 : (insert S st v ind x).2.1 =
      (mutate (push_back S st v x).1 (push_back S st v x).2
        (fun es => rotate_into ind v.count es)).2 := rfl
  refine ⟨?_, ?_, rfl⟩
  · rw [hproj1, hproj2, mobs, hobs,
      rotate_into_spec ind v.count (obs st v) x (obs_length hv) hind]
    rfl
  · rw [hproj2]
    show (mutate _ _ _).2.count = v.count + 1
    rw [mcnt, hcnt]

/-- C10.  The iterator returned by `erase(first, last)` is not the position
following the removed range: when the erased range ends strictly before the
pre-call `end()` (including an empty range starting before the last element)
it points at the last element of the resulting container, and when the range
ends at the pre-call `end()` it is the pre-call `end()` pointer (index
`size()` before the call). -/
theorem C10_erase_returned_iterator {α : Type} (st : Store α) (v : Vec α)
    (ind len : Nat) (hrange : ind + len ≤ size v) :
    size (erase st v ind len).2.1 = size v - len ∧
    (ind + len < size v →
      (erase st v ind len).2.2 = (size v - len) - 1) ∧
    (ind + len = size v →
      (erase st v ind len).2.2 = size v) := by
  have hproj : (erase st v ind len).2.2 =
      (erase_loop (α := α) len (ind + len) (v.count - (ind + len))
        (obs st v, v.count)).2 := rfl
  refine ⟨rfl, ?_, ?_⟩
  · intro hlt
    rw [hproj, erase_loop_res, if_neg (by unfold size at hlt; omega)]
    unfold size at hlt ⊢
    omega
  · intro heq
    rw [hproj, erase_loop_res, if_pos (by unfold size at heq; omega)]
    rfl

/-! ### Behaviour of `data()`, `copy_to_small_data`, `resize` -/

theorem data_spec {α : Type} (S : Nat) {st : Store α} {v : Vec α}
    (hst : WFstore st) (hv : WF S st v) :
    (data st v).2.count = v.count ∧
    WFstore (data st v).1 ∧
    st.next ≤ (data st v).1.next ∧
    obs (data st v).1 (data st v).2 = obs st v ∧
    capacity S (data st v).1 (data st v).2 = capacity S st v ∧
    WF S (data st v).1 (data st v).2 := by
  cases h : v.rep with
  | small es =>
    rw [data_small h]
    exact ⟨rfl, hst, le_refl _, rfl, rfl, hv⟩
  | large i =>
    obtain ⟨b, hb, hlen, hcap, hrc, hScap⟩ := WF_large hv h
    by_cases h1 : refcntAt st i = 1
    · rw [data_large_unique h h1]
      exact ⟨rfl, hst, le_refl _, rfl, rfl, hv⟩
    · rw [data_large_shared h h1]
      have hlt : i < st.next := hasBuf_lt_next hst (hasBuf_eq_true hb)
      set stA := (alloc_large_data st (elemsAt st i) (capAt st i)).1 with hstA
      have hAnew : stA.bufs st.next = some ⟨capAt st i, 1, elemsAt st i⟩ :=
        alloc_bufs_new st _ _
      set stR := release_large_data stA i with hstR
      have hRnew : stR.bufs st.next = some ⟨capAt st i, 1, elemsAt st i⟩ := by
        rw [hstR, release_bufs_ne stA (by omega)]
        exact hAnew
      have hWFA : WFstore stA := WFstore_alloc hst _ _
      have hWFR : WFstore stR := WFstore_release hWFA i
      refine ⟨rfl, hWFR, ?_, ?_, ?_, ?_⟩
      · rw [hstR, release_next, hstA, alloc_fst_next]
        omega
      · rw [obs_large (v := Vec.mk v.count (Rep.large st.next)) rfl,
          elemsAt_eq hRnew, obs_large h]
      · rw [capacity_large (S := S) (v := Vec.mk v.count (Rep.large st.next)) rfl,
          capAt_eq hRnew, capacity_large (S := S) h]
      · refine WF_of_large (b := ⟨capAt st i, 1, elemsAt st i⟩) rfl hRnew ?_ ?_ ?_ ?_
        · show (elemsAt st i).length = v.count
          rw [elemsAt_eq hb, hlen]
        · show v.count ≤ capAt st i
          rw [capAt_eq hb]
          exact hcap
        · exact le_refl 1
        · show S < capAt st i
          rw [capAt_eq hb]
          exact hScap

theorem copy_to_small_spec {α : Type} (S : Nat) {st : Store α} {v : Vec α}
    {i : Nat} (h : v.rep = .large i) (hst : WFstore st) (hv : WF S st v)
    (hcS : v.count ≤ S) :
    (copy_to_small_data st v (obs st v) v.count).2 =
      ⟨v.count, .small ((obs st v).take v.count)⟩ ∧
    obs (copy_to_small_data st v (obs st v) v.count).1
      (copy_to_small_data st v (obs st v) v.count).2 = obs st v ∧
    WFstore (copy_to_small_data st v (obs st v) v.count).1 ∧
    WF S (copy_to_small_data st v (obs st v) v.count).1
      (copy_to_small_data st v (obs st v) v.count).2 ∧
    st.next ≤ (copy_to_small_data st v (obs st v) v.count).1.next := by
  obtain ⟨b, hb, hlen, hcap, hrc, hScap⟩ := WF_large hv h
  have htake : (obs st v).take v.count = obs st v :=
    List.take_of_length_le (by rw [obs_length hv])
  have heq : copy_to_small_data st v (obs st v) v.count =
      (release_large_data (release_large_data (make_new_ref st i) i) i,
        ⟨v.count, .small ((obs st v).take v.count)⟩) := by
    unfold copy_to_small_data
    rw [h]
  rw [heq]
  have hW1 : WFstore (make_new_ref st i) := WFstore_make_new_ref hst i
  have hW2 := WFstore_release hW1 i
  have hW3 := WFstore_release hW2 i
  refine ⟨rfl, ?_, hW3, ?_, ?_⟩
  · rw [obs_small (v := Vec.mk v.count (Rep.small ((obs st v).take v.count))) rfl,
      htake]
  · refine @WF_of_small _ _ _ _ ((obs st v).take v.count) rfl ?_ hcS
    rw [htake, obs_length hv]
  · rw [release_next, release_next, make_new_ref_next]

theorem resize_spec {α : Type} (S : Nat) {st : Store α} {v : Vec α}
    (n : Nat) (hst : WFstore st) (hv : WF S st v) (hcnt : v.count ≤ n) :
    obs (resize S st v n).1 (resize S st v n).2 = obs st v ∧
    (resize S st v n).2.count = v.count ∧
    WFstore (resize S st v n).1 ∧
    WF S (resize S st v n).1 (resize S st v n).2 ∧
    capacity S (resize S st v n).1 (resize S st v n).2 =
      (if n ≤ S then S else n) ∧
    is_small (resize S st v n).2 = decide (n ≤ S) := by
  by_cases hnS : n ≤ S
  · have heq : resize S st v n = copy_to_small_data st v (obs st v) v.count := by
      unfold resize
      rw [if_pos hnS]
    rw [heq, if_pos hnS]
    cases h : v.rep with
    | small es =>
      have hsm : copy_to_small_data st v (obs st v) v.count = (st, v) := by
        unfold copy_to_small_data
        rw [h]
      rw [hsm]
      refine ⟨rfl, rfl, hst, hv, capacity_small h, ?_⟩
      rw [is_small, h]
      simp [hnS]
    | large i =>
      obtain ⟨hv', hobs', hwfs', hwf', _⟩ :=
        copy_to_small_spec S h hst hv (by omega)
      refine ⟨hobs', ?_, hwfs', hwf', ?_, ?_⟩
      · rw [hv']
      · rw [hv']
        exact capacity_small (v := Vec.mk v.count
          (Rep.small ((obs st v).take v.count))) rfl
      · rw [hv']
        simp [is_small, hnS]
  · have heq : resize S st v n =
        ((destroy (alloc_large_data (data st v).1
            (obs (data st v).1 (data st v).2) n).1 (data st v).2),
          ⟨v.count, .large (data st v).1.next⟩) := by
      unfold resize
      rw [if_neg hnS]
      rfl
    obtain ⟨hdc, hdw, hdn, hdo, hdcap, hdwf⟩ := data_spec S hst hv
    set d := data st v with hd
    set stA := (alloc_large_data d.1 (obs d.1 d.2) n).1 with hstA
    have hAnew : stA.bufs d.1.next = some ⟨n, 1, obs d.1 d.2⟩ :=
      alloc_bufs_new d.1 _ _
    have hWFA : WFstore stA := WFstore_alloc hdw _ _
    have hDnew : (destroy stA d.2).bufs d.1.next = some ⟨n, 1, obs d.1 d.2⟩ ∧
        WFstore (destroy stA d.2) := by
      unfold destroy
      cases hr : d.2.rep with
      | small es => exact ⟨hAnew, hWFA⟩
      | large j =>
        obtain ⟨bd, hbd, _⟩ := WF_large hdwf hr
        have hjlt : j < d.1.next := hasBuf_lt_next hdw (hasBuf_eq_true hbd)
        constructor
        · rw [release_bufs_ne stA (by omega)]
          exact hAnew
        · exact WFstore_release hWFA j
    obtain ⟨hD, hWFD⟩ := hDnew
    rw [heq, if_neg hnS]
    refine ⟨?_, rfl, hWFD, ?_, ?_, ?_⟩
    · rw [obs_large (v := Vec.mk v.count (Rep.large d.1.next)) rfl,
        elemsAt_eq hD, hdo]
    · refine WF_of_large (b := ⟨n, 1, obs d.1 d.2⟩) rfl hD ?_ ?_ ?_ ?_
      · show (obs d.1 d.2).length = v.count
        rw [hdo, obs_length hv]
      · exact hcnt
      · exact le_refl 1
      · show S < n
        omega
    · rw [capacity_large (S := S) (v := Vec.mk v.count (Rep.large d.1.next)) rfl,
        capAt_eq hD]
    · simp [is_small, hnS]

/-! ### `shrink_to_fit`, `reserve`, `clear` -/

theorem shrink_small_eq {α : Type} {S : Nat} {st : Store α} {v : Vec α}
    {es : List α} (h : v.rep = .small es) : shrink_to_fit S st v = (st, v) := by
  unfold shrink_to_fit
  rw [h]

theorem shrink_large_eq {α : Type} {S : Nat} {st : Store α} {v : Vec α}
    {i : Nat} (h : v.rep = .large i) :
    shrink_to_fit S st v =
      if v.count ≠ capAt st i then resize S st v v.count else (st, v) := by
  unfold shrink_to_fit
  rw [h]

/-- Empty heap: no buffers allocated. -/
def emptyStore {α : Type} : Store α := ⟨0, fun _ => none⟩

theorem WFstore_empty {α : Type} : WFstore (emptyStore (α := α)) :=
  fun _ _ => rfl

/-- C3 (counterexample).  An inline container of size 1 with `SMALL_SIZE = 2`
is well formed, yet after `shrink_to_fit()` its capacity is 2, not its size 1:
`capacity() == size()` does not hold for every container. -/
theorem C3_counterexample :
    WFstore (emptyStore (α := Nat)) ∧
    WF 2 (emptyStore (α := Nat)) ⟨1, .small [7]⟩ ∧
    size (shrink_to_fit 2 (emptyStore (α := Nat)) ⟨1, .small [7]⟩).2 = 1 ∧
    capacity 2 (shrink_to_fit 2 (emptyStore (α := Nat)) ⟨1, .small [7]⟩).1
      (shrink_to_fit 2 (emptyStore (α := Nat)) ⟨1, .small [7]⟩).2 = 2 ∧
    (2 : Nat) ≠ 1 :=
  ⟨WFstore_empty, by decide⟩

/-- C3 (amended).  After `shrink_to_fit()` the content and size are unchanged
and the capacity is `max(size(), SMALL_SIZE)` — i.e. exactly `size()` whenever
`size() ≥ SMALL_SIZE`, and `SMALL_SIZE` (inline mode) otherwise; the
representation is inline exactly when `size() ≤ SMALL_SIZE`. -/
theorem C3_amended_shrink_to_fit {α : Type} (S : Nat) (st : Store α)
    (v : Vec α) (hst : WFstore st) (hv : WF S st v) :
    obs (shrink_to_fit S st v).1 (shrink_to_fit S st v).2 = obs st v ∧
    size (shrink_to_fit S st v).2 = size v ∧
    capacity S (shrink_to_fit S st v).1 (shrink_to_fit S st v).2 =
      max (size v) S ∧
    is_small (shrink_to_fit S st v).2 = decide (size v ≤ S) := by
  cases h : v.rep with
  | small es =>
    obtain ⟨h1, h2⟩ := WF_small hv h
    rw [shrink_small_eq h]
    refine ⟨rfl, rfl, ?_, ?_⟩
    · rw [capacity_small h]
      unfold size
      omega
    · rw [is_small, h]
      unfold size
      simp [h2]
  | large i =>
    obtain ⟨b, hb, hlen, hcap, hrc, hScap⟩ := WF_large hv h
    rw [shrink_large_eq h]
    by_cases hne : v.count = capAt st i
    · rw [if_neg (by simp [hne])]
      have hcapv : capacity S st v = capAt st i := capacity_large h
      have hSlt : S < v.count := by
        rw [hne, capAt_eq hb]
        exact hScap
      refine ⟨rfl, rfl, ?_, ?_⟩
      · rw [hcapv, ← hne]
        unfold size
        omega
      · rw [is_small, h]
        unfold size
        simp
        omega
    · rw [if_pos hne]
      obtain ⟨r1, r2, _, _, r5, r6⟩ := resize_spec S v.count hst hv (le_refl _)
      refine ⟨r1, r2, ?_, r6⟩
      rw [r5]
      unfold size
      by_cases hcS : v.count ≤ S
      · rw [if_pos hcS]
        omega
      · rw [if_neg hcS]
        omega

/-- The shared, already-large-enough container for the C6 counterexample:
buffer 0 has capacity 3, refcount 2 and two live elements. -/
def reserveStore : Store Nat :=
  ⟨1, updBufs (fun _ => none) 0 (some ⟨3, 2, [10, 20]⟩)⟩

/-- Container of size 2 sharing `reserveStore`'s buffer 0. -/
def reserveVec : Vec Nat := ⟨2, .large 0⟩

theorem WFstore_reserveStore : WFstore reserveStore := by
  intro i hi
  have h1 : 1 ≤ i := hi
  show updBufs (fun _ => none) 0 (some ⟨3, 2, [10, 20]⟩) i = none
  unfold updBufs
  rw [if_neg (by omega)]

/-- C6 (counterexample).  With `SMALL_SIZE = 1`, a shared (non-unique)
container of size 2 and capacity 3: none of the claim's no-op conditions hold
for `reserve(1)` (the buffer is not unique and the sequence is not inline),
so the claim requires a reallocation to capacity exactly 1 — but the code
leaves the capacity at 3. -/
theorem C6_counterexample :
    WFstore reserveStore ∧
    WF 1 reserveStore reserveVec ∧
    is_unique reserveStore reserveVec = false ∧
    is_small reserveVec = false ∧
    capacity 1 (reserve 1 reserveStore reserveVec 1).1
      (reserve 1 reserveStore reserveVec 1).2 = 3 ∧
    (3 : Nat) ≠ 1 :=
  ⟨WFstore_reserveStore, by decide⟩

/-- C6 (amended).  `reserve(n)`: afterwards `capacity() ≥ n`; the call is a
no-op when the buffer is unique and `capacity() ≥ n` (hence also when inline
and `n ≤ SMALL_SIZE`), and additionally when the buffer is shared and
`n ≤ size()`; otherwise it reallocates — to capacity exactly `n` when
`n > SMALL_SIZE`, and into inline storage (capacity `SMALL_SIZE`) when
`n ≤ SMALL_SIZE`.  Content and size are always preserved. -/
theorem C6_amended_reserve {α : Type} (S : Nat) (st : Store α) (v : Vec α)
    (n : Nat) (hst : WFstore st) (hv : WF S st v) :
    n ≤ capacity S (reserve S st v n).1 (reserve S st v n).2 ∧
    (is_unique st v = true → n ≤ capacity S st v → reserve S st v n = (st, v)) ∧
    (is_unique st v = false → n ≤ size v → reserve S st v n = (st, v)) ∧
    ((is_unique st v = false ∧ size v < n) ∨ capacity S st v < n →
      capacity S (reserve S st v n).1 (reserve S st v n).2 =
        if n ≤ S then S else n) ∧
    obs (reserve S st v n).1 (reserve S st v n).2 = obs st v ∧
    size (reserve S st v n).2 = size v := by
  by_cases hcond : (is_unique st v = false ∧ v.count < n) ∨ capacity S st v < n
  · have heq : reserve S st v n = resize S st v n := by
      unfold reserve
      rw [if_pos hcond]
    have hcnt : v.count ≤ n := by
      rcases hcond with ⟨_, hlt⟩ | hlt
      · omega
      · have := obs_length hv
        have hle : v.count ≤ capacity S st v := by
          cases h : v.rep with
          | small es =>
            rw [capacity_small h]
            exact (WF_small hv h).2
          | large i =>
            obtain ⟨b, hb, _, hcap, _, _⟩ := WF_large hv h
            rw [capacity_large h, capAt_eq hb]
            exact hcap
        omega
    obtain ⟨r1, r2, _, _, r5, _⟩ := resize_spec S n hst hv hcnt
    rw [heq]
    refine ⟨?_, ?_, ?_, fun _ => r5, r1, r2⟩
    · rw [r5]
      by_cases hnS : n ≤ S
      · rw [if_pos hnS]
        omega
      · rw [if_neg hnS]
    · intro hu hcapn
      exfalso
      rcases hcond with ⟨hu', _⟩ | hlt
      · rw [hu] at hu'
        cases hu'
      · omega
    · intro hu hsz
      exfalso
      unfold size at hsz
      rcases hcond with ⟨_, hlt⟩ | hlt
      · omega
      · have hle : v.count ≤ capacity S st v := by
          cases h : v.rep with
          | small es =>
            rw [capacity_small h]
            exact (WF_small hv h).2
          | large i =>
            obtain ⟨b, hb, _, hcap, _, _⟩ := WF_large hv h
            rw [capacity_large h, capAt_eq hb]
            exact hcap
        omega
  · have heq : reserve S st v n = (st, v) := by
      unfold reserve
      rw [if_neg hcond]
    rw [heq]
    push_neg at hcond
    refine ⟨?_, fun _ _ => rfl, fun _ _ => rfl, ?_, rfl, rfl⟩
    · exact hcond.2
    · intro hcond2
      exfalso
      unfold size at hcond2
      rcases hcond2 with ⟨hu, hlt⟩ | hlt
      · have := hcond.1 hu
        omega
      · omega

/-- C7.  `clear()`: afterwards `size() == 0`, the content is empty, and
`capacity()` is unchanged; a unique buffer keeps its mode (and, when large,
its very buffer), while a shared buffer is released (refcount decremented)
and replaced by a fresh empty buffer of the same capacity into which no
element is copied. -/
theorem C7_clear_preserves_capacity {α : Type} (S : Nat) (st : Store α)
    (v : Vec α) (hst : WFstore st) (hv : WF S st v) :
    size (clear st v).2 = 0 ∧
    obs (clear st v).1 (clear st v).2 = [] ∧
    capacity S (clear st v).1 (clear st v).2 = capacity S st v ∧
    (is_unique st v = true → is_small (clear st v).2 = is_small v ∧
      (∀ i, v.rep = .large i → (clear st v).2.rep = .large i)) ∧
    (is_unique st v = false → ∀ i, v.rep = .large i →
      (clear st v).2.rep = .large st.next ∧
      elemsAt (clear st v).1 st.next = [] ∧
      refcntAt (clear st v).1 st.next = 1 ∧
      refcntAt (clear st v).1 i = refcntAt st i - 1) := by
  cases h : v.rep with
  | small es =>
    rw [clear_small_eq h]
    refine ⟨rfl, rfl, ?_, ?_, ?_⟩
    · rw [capacity_small (v := Vec.mk 0 (Rep.small [])) rfl, capacity_small h]
    · intro _
      refine ⟨?_, ?_⟩
      · unfold is_small
        rw [h]
      · intro i hi
        exact Rep.noConfusion hi
    · intro hu
      rw [is_unique_small h] at hu
      exact Bool.noConfusion hu
  | large i =>
    obtain ⟨b, hb, hlen, hcap, hrc, hScap⟩ := WF_large hv h
    have hlt : i < st.next := hasBuf_lt_next hst (hasBuf_eq_true hb)
    by_cases h1 : refcntAt st i = 1
    · rw [clear_large_unique_eq h h1]
      have hset : (set_elems st i []).bufs i =
          some ⟨b.capacity, b.refcnt, []⟩ := set_elems_bufs_self st _ hb
      refine ⟨rfl, ?_, ?_, ?_, ?_⟩
      · rw [obs_large (v := Vec.mk 0 (Rep.large i)) rfl, elemsAt_eq hset]
      · rw [capacity_large (S := S) (v := Vec.mk 0 (Rep.large i)) rfl,
          capAt_eq hset, capacity_large (S := S) h, capAt_eq hb]
      · intro _
        refine ⟨?_, fun j hj => ?_⟩
        · unfold is_small
          rw [h]
        · cases hj
          rfl
      · intro hu
        rw [is_unique_large h, h1] at hu
        simp at hu
    · rw [clear_large_shared_eq h h1]
      have hrc2 : 2 ≤ b.refcnt := by
        rw [refcntAt_eq hb] at h1
        omega
      set stR := release_large_data st i with hstR
      have hRi : stR.bufs i = some ⟨b.capacity, b.refcnt - 1, b.elems⟩ := by
        rw [hstR, release_bufs_self_dec st hb hrc2]
      have hRnext : stR.next = st.next := by
        rw [hstR, release_next]
      have hRcap : capAt stR i = b.capacity := by
        rw [capAt, bufAt_eq hRi]
      have hA2 : (alloc_large_data stR [] (capAt stR i)).2 = stR.next :=
        alloc_snd stR _ _
      have hAnew : (alloc_large_data stR [] (capAt stR i)).1.bufs stR.next =
          some ⟨capAt stR i, 1, []⟩ := alloc_bufs_new stR _ _
      have hAi : (alloc_large_data stR [] (capAt stR i)).1.bufs i = some
          ⟨b.capacity, b.refcnt - 1, b.elems⟩ := by
        rw [alloc_bufs_ne stR _ _ (by rw [hRnext]; omega)]
        exact hRi
      rw [hA2, hRnext]
      have hAnew' : (alloc_large_data stR [] (capAt stR i)).1.bufs st.next =
          some ⟨capAt stR i, 1, []⟩ := by
        rw [← hRnext]
        exact hAnew
      refine ⟨rfl, ?_, ?_, ?_, ?_⟩
      · rw [obs_large (v := Vec.mk 0 (Rep.large st.next)) rfl, elemsAt_eq hAnew']
      · rw [capacity_large (S := S) (v := Vec.mk 0 (Rep.large st.next)) rfl,
          capAt_eq hAnew', hRcap, capacity_large (S := S) h, capAt_eq hb]
      · intro hu
        rw [is_unique_large h] at hu
        simp at hu
        exact absurd hu h1
      · intro _ j hj
        cases hj
        refine ⟨rfl, elemsAt_eq hAnew', ?_, ?_⟩
        · rw [refcntAt_eq hAnew']
        · rw [refcntAt_eq hAi, refcntAt_eq hb]

/-! ### `swap` -/

theorem store_eq_of {α : Type} {a b : Store α} (h1 : a.next = b.next)
    (h2 : ∀ k, a.bufs k = b.bufs k) : a = b := by
  cases a
  cases b
  simp only [Store.mk.injEq]
  exact ⟨h1, funext h2⟩

theorem smallSwapLists_eq {α : Type} (ea eb : List α) :
    smallSwapLists ea eb = (eb, ea) := by
  unfold smallSwapLists
  by_cases hab : eb.length < ea.length
  · rw [if_pos hab]
    have hcnt : min ea.length eb.length = eb.length :=
      Nat.min_eq_right (by omega)
    rw [hcnt, List.take_of_length_le (le_refl _)]
    have h1 : (eb ++ ea.drop eb.length).take eb.length = eb := List.take_left eb _
    have h2 : (eb ++ ea.drop eb.length).drop eb.length = ea.drop eb.length :=
      List.drop_left eb _
    rw [h1, h2, List.drop_eq_nil_of_le (le_refl _), List.append_nil,
      List.take_append_drop]
  · rw [if_neg hab]
    have hcnt : min ea.length eb.length = ea.length :=
      Nat.min_eq_left (by omega)
    rw [hcnt, List.drop_eq_nil_of_le (le_refl _), List.append_nil,
      List.take_of_length_le (le_refl _)]
    have h1 : (ea ++ eb.drop ea.length).take ea.length = ea := List.take_left ea _
    have h2 : (ea ++ eb.drop ea.length).drop ea.length = eb.drop ea.length :=
      List.drop_left ea _
    rw [h1, h2, List.take_append_drop]

theorem swap_mixed_eq {α : Type} {st : Store α} {j : Nat} {b : Buf α}
    (hb : st.bufs j = some b) (hrc : 1 ≤ b.refcnt) : swap_mixed st j = st := by
  obtain ⟨bc, br, be⟩ := b
  simp only at hrc
  have h1 : (make_new_ref st j).bufs j = some ⟨bc, br + 1, be⟩ :=
    make_new_ref_bufs_self st hb
  have h2 : (make_new_ref (make_new_ref st j) j).bufs j =
      some ⟨bc, br + 2, be⟩ :=
    make_new_ref_bufs_self _ h1
  have h3 : (release_large_data (make_new_ref (make_new_ref st j) j) j).bufs j =
      some ⟨bc, br + 1, be⟩ :=
    release_bufs_self_dec _ h2 (by show 2 ≤ br + 2; omega)
  have h4 : (release_large_data (release_large_data
      (make_new_ref (make_new_ref st j) j) j) j).bufs j =
      some ⟨bc, br, be⟩ :=
    release_bufs_self_dec _ h3 (by show 2 ≤ br + 1; omega)
  have h5 : (make_new_ref (release_large_data (release_large_data
      (make_new_ref (make_new_ref st j) j) j) j) j).bufs j =
      some ⟨bc, br + 1, be⟩ :=
    make_new_ref_bufs_self _ h4
  refine store_eq_of ?_ ?_
  · simp only [swap_mixed, release_next, make_new_ref_next]
  · intro k
    show (release_large_data (make_new_ref (release_large_data
      (release_large_data (make_new_ref (make_new_ref st j) j) j) j) j) j).bufs k
        = st.bufs k
    by_cases hk : k = j
    · subst hk
      rw [release_bufs_self_dec _ h5 (by show 2 ≤ br + 1; omega), hb]
      simp
    · rw [release_bufs_ne _ hk, make_new_ref_bufs_ne _ hk, release_bufs_ne _ hk,
        release_bufs_ne _ hk, make_new_ref_bufs_ne _ hk,
        make_new_ref_bufs_ne _ hk]

theorem swap_small_small_eq {α : Type} {st : Store α} {a b : Vec α}
    {ea eb : List α} (ha : a.rep = .small ea) (hb : b.rep = .small eb) :
    swap st a b = (st, ⟨b.count, .small (smallSwapLists ea eb).1⟩,
      ⟨a.count, .small (smallSwapLists ea eb).2⟩) := by
  unfold swap
  rw [ha, hb]

theorem swap_small_large_eq {α : Type} {st : Store α} {a b : Vec α}
    {ea : List α} {j : Nat} (ha : a.rep = .small ea) (hb : b.rep = .large j) :
    swap st a b = (swap_mixed st j, ⟨b.count, .large j⟩,
      ⟨a.count, .small ea⟩) := by
  unfold swap
  rw [ha, hb]

theorem swap_large_small_eq {α : Type} {st : Store α} {a b : Vec α}
    {i : Nat} {eb : List α} (ha : a.rep = .large i) (hb : b.rep = .small eb) :
    swap st a b = (swap_mixed st i, ⟨b.count, .small eb⟩,
      ⟨a.count, .large i⟩) := by
  unfold swap
  rw [ha, hb]

theorem swap_large_large_eq {α : Type} {st : Store α} {a b : Vec α}
    {i j : Nat} (ha : a.rep = .large i) (hb : b.rep = .large j) :
    swap st a b = (st, ⟨b.count, .large j⟩, ⟨a.count, .large i⟩) := by
  unfold swap
  rw [ha, hb]

/-- C4 (counterexample).  Two well-formed inline containers, an element type
whose copy operation throws on its first invocation: `swap` fails (the
tail-move loop copy-constructs an element), refuting "swap raises no error on
any path, regardless of representation". -/
theorem C4_counterexample :
    is_small (⟨0, .small []⟩ : Vec Nat) = true ∧
    is_small (⟨1, .small [5]⟩ : Vec Nat) = true ∧
    WF 2 (emptyStore (α := Nat)) ⟨0, .small []⟩ ∧
    WF 2 (emptyStore (α := Nat)) ⟨1, .small [5]⟩ ∧
    swapF (7 : Nat) 0 (emptyStore (α := Nat)) ⟨0, .small []⟩ ⟨1, .small [5]⟩ =
      .error 7 :=
  ⟨rfl, rfl, by decide, by decide, rfl⟩

/-- C4 (amended).  `a.swap(b)` exchanges the two containers' full contents
(afterwards `a` holds `b`'s prior size and elements and `b` holds `a`'s);
when both containers are Shared the swap performs no element copies and never
fails (the fallible model returns success for every fuel value, consuming
none), but paths involving an Inline container perform element copy
operations and propagate an element-copy failure. -/
theorem C4_amended_swap_exchanges {α : Type} (S : Nat) (st : Store α)
    (a b : Vec α) (hst : WFstore st) (ha : WF S st a) (hb : WF S st b) :
    obs (swap st a b).1 (swap st a b).2.1 = obs st b ∧
    obs (swap st a b).1 (swap st a b).2.2 = obs st a ∧
    size (swap st a b).2.1 = size b ∧
    size (swap st a b).2.2 = size a ∧
    (∀ i j, a.rep = .large i → b.rep = .large j →
      ∀ (ε : Type) (e : ε) (fuel : Fuel),
        swapF e fuel st a b =
          .ok (st, ⟨b.count, .large j⟩, ⟨a.count, .large i⟩, fuel)) := by
  cases hra : a.rep with
  | small ea =>
    cases hrb : b.rep with
    | small eb =>
      rw [swap_small_small_eq hra hrb, smallSwapLists_eq]
      refine ⟨?_, ?_, rfl, rfl, ?_⟩
      · rw [obs_small (v := Vec.mk b.count (Rep.small eb)) rfl, obs_small hrb]
      · rw [obs_small (v := Vec.mk a.count (Rep.small ea)) rfl, obs_small hra]
      · intro i j hi _
        exact Rep.noConfusion hi
    | large j =>
      obtain ⟨bj, hbj, _, _, hrcj, _⟩ := WF_large hb hrb
      rw [swap_small_large_eq hra hrb, swap_mixed_eq hbj hrcj]
      refine ⟨?_, ?_, rfl, rfl, ?_⟩
      · rw [obs_large (v := Vec.mk b.count (Rep.large j)) rfl, obs_large hrb]
      · rw [obs_small (v := Vec.mk a.count (Rep.small ea)) rfl, obs_small hra]
      · intro i j hi _
        exact Rep.noConfusion hi
  | large i =>
    cases hrb : b.rep with
    | small eb =>
      obtain ⟨bi, hbi, _, _, hrci, _⟩ := WF_large ha hra
      rw [swap_large_small_eq hra hrb, swap_mixed_eq hbi hrci]
      refine ⟨?_, ?_, rfl, rfl, ?_⟩
      · rw [obs_small (v := Vec.mk b.count (Rep.small eb)) rfl, obs_small hrb]
      · rw [obs_large (v := Vec.mk a.count (Rep.large i)) rfl, obs_large hra]
      · intro i' j hi hj
        exact Rep.noConfusion hj
    | large j =>
      rw [swap_large_large_eq hra hrb]
      refine ⟨?_, ?_, rfl, rfl, ?_⟩
      · rw [obs_large (v := Vec.mk b.count (Rep.large j)) rfl, obs_large hrb]
      · rw [obs_large (v := Vec.mk a.count (Rep.large i)) rfl, obs_large hra]
      · intro i' j' hi hj ε e fuel
        cases hi
        cases hj
        unfold swapF
        rw [hra, hrb]

/-! ### Fallible-model lemmas (exception safety) -/

theorem safe_init_goF_err {α ε : Type} (e : ε) :
    ∀ (src acc : List α) (fuel : Fuel), fuel < src.length →
      safe_init_goF e fuel acc src =
        .error (e, destruct_array (acc.length + fuel)) := by
  intro src
  induction src with
  | nil =>
    intro acc fuel h
    simp at h
  | cons x rest ih =>
    intro acc fuel h
    cases fuel with
    | zero =>
      show safe_init_goF e 0 acc (x :: rest) = _
      unfold safe_init_goF copyF
      rfl
    | succ f =>
      show safe_init_goF e (f + 1) acc (x :: rest) = _
      have hstep : safe_init_goF e (f + 1) acc (x :: rest) =
          safe_init_goF e f (acc ++ [x]) rest := rfl
      have harg : f < rest.length := Nat.lt_of_succ_lt_succ h
      rw [hstep, ih (acc ++ [x]) f harg]
      have hlen : (acc ++ [x]).length + f = acc.length + (f + 1) := by
        simp
        omega
      rw [hlen]

theorem safe_init_goF_ok {α ε : Type} (e : ε) :
    ∀ (src acc : List α) (fuel : Fuel), src.length ≤ fuel →
      safe_init_goF e fuel acc src = .ok (acc ++ src, fuel - src.length) := by
  intro src
  induction src with
  | nil =>
    intro acc fuel _
    simp [safe_init_goF]
  | cons x rest ih =>
    intro acc fuel h
    cases fuel with
    | zero => simp at h
    | succ f =>
      have hstep : safe_init_goF e (f + 1) acc (x :: rest) =
          safe_init_goF e f (acc ++ [x]) rest := rfl
      have harg : rest.length ≤ f := Nat.le_of_succ_le_succ h
      rw [hstep, ih (acc ++ [x]) f harg]
      simp

theorem safe_init_arrayF_err {α ε : Type} (e : ε) (fuel : Fuel) (src : List α)
    (h : fuel < src.length) :
    safe_init_arrayF e fuel src = .error (e, (List.range fuel).reverse) := by
  unfold safe_init_arrayF
  rw [safe_init_goF_err e src [] fuel h]
  show Except.error (e, destruct_array (0 + fuel)) = _
  rw [Nat.zero_add]
  rfl

theorem safe_init_arrayF_ok {α ε : Type} (e : ε) (fuel : Fuel) (src : List α)
    (h : src.length ≤ fuel) :
    safe_init_arrayF e fuel src = .ok (src, fuel - src.length) := by
  unfold safe_init_arrayF
  rw [safe_init_goF_ok e src [] fuel h]
  rfl

theorem alloc_large_dataF_err {α ε : Type} (e : ε) (fuel : Fuel) (st : Store α)
    (src : List α) (cap : Nat) (h : fuel < src.length) :
    alloc_large_dataF e fuel st src cap =
      .error (e, (List.range fuel).reverse, ⟨st.next + 1, st.bufs⟩) := by
  unfold alloc_large_dataF
  rw [safe_init_arrayF_err e fuel src h]

theorem alloc_large_dataF_ok {α ε : Type} (e : ε) (fuel : Fuel) (st : Store α)
    (src : List α) (cap : Nat) (h : src.length ≤ fuel) :
    alloc_large_dataF e fuel st src cap =
      .ok ((alloc_large_data st src cap).1, st.next, fuel - src.length) := by
  unfold alloc_large_dataF
  rw [safe_init_arrayF_ok e fuel src h]
  rfl

theorem obs_bufs_congr {α : Type} {st st' : Store α} {v : Vec α}
    (h : ∀ k, st'.bufs k = st.bufs k) : obs st' v = obs st v := by
  cases hr : v.rep with
  | small es => rw [obs_small hr, obs_small hr]
  | large i => rw [obs_large hr, obs_large hr, elemsAt_congr (h i)]

theorem dataF_ok_unique {α ε : Type} (e : ε) (fuel : Fuel) {st : Store α}
    {v : Vec α} (hu : is_unique st v = true) :
    dataF e fuel st v = .ok (st, v, fuel) := by
  cases hr : v.rep with
  | small es =>
    unfold dataF
    rw [hr]
  | large i =>
    rw [is_unique_large hr] at hu
    simp only [beq_iff_eq] at hu
    unfold dataF
    rw [hr]
    dsimp only
    rw [if_pos hu]

theorem dataF_err {α ε : Type} (S : Nat) (e : ε) (fuel : Fuel) {st : Store α}
    {v : Vec α} {i : Nat} (hr : v.rep = .large i) (h1 : ¬ refcntAt st i = 1)
    (hv : WF S st v) (hflt : fuel < v.count) :
    dataF e fuel st v =
      .error (e, (List.range fuel).reverse, ⟨st.next + 1, st.bufs⟩, v) := by
  obtain ⟨b, hb, hlen, _⟩ := WF_large hv hr
  have hsrc : (elemsAt st i).length = v.count := by
    rw [elemsAt_eq hb, hlen]
  unfold dataF
  rw [hr]
  dsimp only
  have harg : fuel < (elemsAt st i).length := by
    rw [hsrc]
    exact hflt
  rw [if_neg h1,
    alloc_large_dataF_err e fuel st (elemsAt st i) (capAt st i) harg]

theorem dataF_ok_shared {α ε : Type} (S : Nat) (e : ε) (fuel : Fuel)
    {st : Store α} {v : Vec α} {i : Nat} (hr : v.rep = .large i)
    (h1 : ¬ refcntAt st i = 1) (hv : WF S st v) (hfu : v.count ≤ fuel) :
    dataF e fuel st v = .ok ((data st v).1, (data st v).2, fuel - v.count) := by
  obtain ⟨b, hb, hlen, _⟩ := WF_large hv hr
  have hsrc : (elemsAt st i).length = v.count := by
    rw [elemsAt_eq hb, hlen]
  unfold dataF
  rw [hr]
  dsimp only
  have harg : (elemsAt st i).length ≤ fuel := by
    rw [hsrc]
    exact hfu
  rw [if_neg h1,
    alloc_large_dataF_ok e fuel st (elemsAt st i) (capAt st i) harg,
    data_large_shared hr h1, hsrc]

theorem copy_ctorF_err {α ε : Type} (e : ε) (fuel : Fuel) (st : Store α)
    {v : Vec α} {es : List α} (hr : v.rep = .small es) (h : fuel < es.length) :
    copy_ctorF e fuel st v = .error (e, (List.range fuel).reverse) := by
  unfold copy_ctorF
  rw [hr]
  dsimp only
  rw [safe_init_arrayF_err e fuel es h]

theorem is_unique_false_elim {α : Type} {st : Store α} {v : Vec α}
    (hu : is_unique st v = false) :
    ∃ i, v.rep = .large i ∧ ¬ refcntAt st i = 1 := by
  cases hr : v.rep with
  | small es =>
    rw [is_unique_small hr] at hu
    exact Bool.noConfusion hu
  | large i =>
    rw [is_unique_large hr] at hu
    simp only [beq_eq_false_iff_ne, ne_eq] at hu
    exact ⟨i, rfl, hu⟩

theorem push_backF_full_eq {α ε : Type} (S : Nat) (e : ε) (fuel : Fuel)
    {st : Store α} {v : Vec α} (x : α) (hfull : v.count = capacity S st v) :
    push_backF S e fuel st v x =
      (match alloc_large_dataF e fuel st (obs st v)
          (2 * capacity S st v + 1) with
       | .error (err, tr, st1) => .error (err, tr, st1, v)
       | .ok (st1, nid, f1) =>
         match copyF e f1 x with
         | .error err =>
           .error (err, destruct_array v.count, release_large_data st1 nid, v)
         | .ok (x', f2) =>
           .ok (destroy (push_elem st1 nid x') v,
             ⟨v.count + 1, .large nid⟩, f2)) := by
  simp only [push_backF]
  rw [if_pos hfull]

theorem push_backF_nonfull_eq {α ε : Type} (S : Nat) (e : ε) (fuel : Fuel)
    {st : Store α} {v : Vec α} (x : α) (hfull : ¬ v.count = capacity S st v) :
    push_backF S e fuel st v x =
      (match dataF e fuel st v with
       | .error err => .error err
       | .ok (st1, v1, f1) =>
         match copyF e f1 x with
         | .error err => .error (err, [], st1, v1)
         | .ok (x', f2) =>
           match v1.rep with
           | .small es => .ok (st1, ⟨v.count + 1, .small (es ++ [x'])⟩, f2)
           | .large i => .ok (push_elem st1 i x', ⟨v.count + 1, .large i⟩, f2)) := by
  simp only [push_backF]
  rw [if_neg hfull]

theorem push_backF_fail {α ε : Type} (S : Nat) (e : ε) (fuel : Fuel)
    {st : Store α} {v : Vec α} (x : α) (hst : WFstore st) (hv : WF S st v)
    (hle : fuel ≤ v.count)
    (hcase : v.count = capacity S st v ∨ is_unique st v = false ∨ fuel = 0) :
    ∃ tr st1 v1, push_backF S e fuel st v x = .error (e, tr, st1, v1) ∧
      obs st1 v1 = obs st v ∧ v1.count = v.count := by
  have hsrc : (obs st v).length = v.count := obs_length hv
  by_cases hfull : v.count = capacity S st v
  · by_cases hflt : fuel < v.count
    · have halloc := alloc_large_dataF_err e fuel st (obs st v)
        (2 * capacity S st v + 1) (by rw [hsrc]; exact hflt)
      refine ⟨(List.range fuel).reverse, ⟨st.next + 1, st.bufs⟩, v, ?_, ?_, rfl⟩
      · rw [push_backF_full_eq S e fuel x hfull, halloc]
      · exact obs_bufs_congr (fun k => rfl)
    · have hfeq : fuel = v.count :=
        Nat.le_antisymm hle (Nat.le_of_not_lt hflt)
      have halloc := alloc_large_dataF_ok e fuel st (obs st v)
        (2 * capacity S st v + 1) (by rw [hsrc, hfeq])
      have hzero : fuel - (obs st v).length = 0 := by
        rw [hsrc, hfeq, Nat.sub_self]
      set stA := (alloc_large_data st (obs st v) (2 * capacity S st v + 1)).1
        with hstA
      have hAnew : stA.bufs st.next =
          some ⟨2 * capacity S st v + 1, 1, obs st v⟩ := alloc_bufs_new st _ _
      have hcong : ∀ k, (release_large_data stA st.next).bufs k = st.bufs k := by
        intro k
        by_cases hk : k = st.next
        · subst hk
          rw [release_bufs_self_free stA hAnew (by show (1 : Nat) ≤ 1; exact le_refl 1),
            hst st.next (le_refl _)]
        · rw [release_bufs_ne stA hk, hstA, alloc_bufs_ne st _ _ hk]
      refine ⟨destruct_array v.count, release_large_data stA st.next, v, ?_, ?_, rfl⟩
      · rw [push_backF_full_eq S e fuel x hfull, halloc, hzero]
        rfl
      · exact obs_bufs_congr hcong
  · by_cases hu : is_unique st v = true
    · have hf0 : fuel = 0 := by
        rcases hcase with hc | hc | hc
        · exact absurd hc hfull
        · rw [hu] at hc
          exact Bool.noConfusion hc
        · exact hc
      subst hf0
      refine ⟨[], st, v, ?_, rfl, rfl⟩
      rw [push_backF_nonfull_eq S e 0 x hfull, dataF_ok_unique e 0 hu]
      rfl
    · have hu' : is_unique st v = false := by
        cases h : is_unique st v
        · rfl
        · exact absurd h hu
      obtain ⟨i, hr, h1⟩ := is_unique_false_elim hu'
      by_cases hflt : fuel < v.count
      · refine ⟨(List.range fuel).reverse, ⟨st.next + 1, st.bufs⟩, v, ?_, ?_, rfl⟩
        · rw [push_backF_nonfull_eq S e fuel x hfull,
            dataF_err S e fuel hr h1 hv hflt]
        · exact obs_bufs_congr (fun k => rfl)
      · have hfeq : fuel = v.count :=
          Nat.le_antisymm hle (Nat.le_of_not_lt hflt)
        have hzero : fuel - v.count = 0 := by
          rw [hfeq, Nat.sub_self]
        obtain ⟨hdc, _, _, hdo, _, _⟩ := data_spec S hst hv
        refine ⟨[], (data st v).1, (data st v).2, ?_, hdo, hdc⟩
        rw [push_backF_nonfull_eq S e fuel x hfull,
          dataF_ok_shared S e fuel hr h1 hv (Nat.le_of_not_lt hflt), hzero]
        rfl

/-- C2.  Strong exception guarantee on element-copy failure: when the
element type's copy operation fails on the `i`-th copy of a bulk copy
(`safe_init_array` — used by copy-construction, privatization through mutable
`data()`, and growth in `push_back`), the `i` elements already copied into
the destination are destructed in reverse order (indices `i-1` down to `0`),
a partially built heap buffer is deleted (the error store holds exactly the
original buffer map), the original exception value propagates to the caller
unchanged, and every container involved keeps its pre-call observable content
and size. -/
theorem C2_strong_guarantee_on_copy_failure :
    (∀ (α ε : Type) (e : ε) (fuel : Fuel) (src : List α), fuel < src.length →
      safe_init_arrayF e fuel src = .error (e, (List.range fuel).reverse)) ∧
    (∀ (α ε : Type) (e : ε) (fuel : Fuel) (src : List α), src.length ≤ fuel →
      safe_init_arrayF e fuel src = .ok (src, fuel - src.length)) ∧
    (∀ (α ε : Type) (e : ε) (fuel : Fuel) (st : Store α) (src : List α)
      (cap : Nat), fuel < src.length →
      alloc_large_dataF e fuel st src cap =
        .error (e, (List.range fuel).reverse, ⟨st.next + 1, st.bufs⟩)) ∧
    (∀ (α ε : Type) (e : ε) (fuel : Fuel) (st : Store α) (v : Vec α)
      (es : List α), v.rep = .small es → fuel < es.length →
      copy_ctorF e fuel st v = .error (e, (List.range fuel).reverse)) ∧
    (∀ (α ε : Type) (S : Nat) (e : ε) (fuel : Fuel) (st : Store α) (v : Vec α)
      (i : Nat), v.rep = .large i → ¬ refcntAt st i = 1 → WF S st v →
      fuel < v.count →
      dataF e fuel st v =
        .error (e, (List.range fuel).reverse, ⟨st.next + 1, st.bufs⟩, v)) ∧
    (∀ (α ε : Type) (S : Nat) (e : ε) (fuel : Fuel) (st : Store α) (v : Vec α)
      (x : α), WFstore st → WF S st v → fuel ≤ v.count →
      (v.count = capacity S st v ∨ is_unique st v = false ∨ fuel = 0) →
      ∃ tr st1 v1, push_backF S e fuel st v x = .error (e, tr, st1, v1) ∧
        obs st1 v1 = obs st v ∧ size v1 = size v) := by
  refine ⟨?_, ?_, ?_, ?_, ?_, ?_⟩
  · intro α ε e fuel src h
    exact safe_init_arrayF_err e fuel src h
  · intro α ε e fuel src h
    exact safe_init_arrayF_ok e fuel src h
  · intro α ε e fuel st src cap h
    exact alloc_large_dataF_err e fuel st src cap h
  · intro α ε e fuel st v es hr h
    exact copy_ctorF_err e fuel st hr h
  · intro α ε S e fuel st v i hr h1 hv hflt
    exact dataF_err S e fuel hr h1 hv hflt
  · intro α ε S e fuel st v x hst hv hle hcase
    obtain ⟨tr, st1, v1, heq, hobs, hcnt⟩ :=
      push_backF_fail S e fuel x hst hv hle hcase
    exact ⟨tr, st1, v1, heq, hobs, hcnt⟩

/-! ### Invariant preservation helpers -/

theorem count_le_capacity {α : Type} {S : Nat} {st : Store α} {v : Vec α}
    (hv : WF S st v) : v.count ≤ capacity S st v := by
  cases h : v.rep with
  | small es =>
    rw [capacity_small h]
    exact (WF_small hv h).2
  | large i =>
    obtain ⟨b, hb, _, hcap, _, _⟩ := WF_large hv h
    rw [capacity_large h, capAt_eq hb]
    exact hcap

theorem rotate_into_length {α : Type} (t : Nat) :
    ∀ (w : Nat) (es : List α), (rotate_into t w es).length = es.length := by
  intro w
  induction w with
  | zero => intro es; rfl
  | succ w ih =>
    intro es
    rw [rotate_into_succ]
    by_cases ht : w + 1 = t
    · rw [if_pos ht]
    · rw [if_neg ht, ih, swapAt_length]

theorem mutate_WF {α : Type} (S : Nat) {st : Store α} {v : Vec α}
    (f : List α → List α) (newCount : Nat) (hst : WFstore st) (hv : WF S st v)
    (hlen : (f (obs st v)).length = newCount)
    (hle : newCount ≤ capacity S st v) :
    WFstore (mutate st v f).1 ∧
    WF S (mutate st v f).1 ⟨newCount, (mutate st v f).2.rep⟩ := by
  obtain ⟨_, hwfs, _, _, _, _, hsmall, hlarge⟩ := mutate_spec S f hst hv
  refine ⟨hwfs, ?_⟩
  cases h : v.rep with
  | small es =>
    obtain ⟨hrep, _⟩ := hsmall es h
    refine @WF_of_small _ _ _ _ (f es) ?_ ?_ ?_
    · show (⟨newCount, (mutate st v f).2.rep⟩ : Vec α).rep = Rep.small (f es)
      rw [hrep]
    · rw [← hlen, obs_small h]
    · rw [← @capacity_small _ S st v es h]
      exact hle
  | large i =>
    obtain ⟨j, hrep, hbufs⟩ := hlarge i h
    obtain ⟨b, hb, _, _, _, hScap⟩ := WF_large hv h
    refine WF_of_large (b := ⟨capAt st i, 1, f (elemsAt st i)⟩) (i := j)
      ?_ hbufs ?_ ?_ ?_ ?_
    · show (⟨newCount, (mutate st v f).2.rep⟩ : Vec α).rep = Rep.large j
      rw [hrep]
    · show (f (elemsAt st i)).length = newCount
      rw [← obs_large h, hlen]
    · show newCount ≤ capAt st i
      rw [← capacity_large (S := S) h]
      exact hle
    · exact le_refl 1
    · show S < capAt st i
      rw [capAt_eq hb]
      exact hScap

theorem copy_ctor_pres {α : Type} {S : Nat} {st : Store α} {v : Vec α}
    (hst : WFstore st) (hv : WF S st v) :
    WFstore (copy_ctor st v).1 ∧ WF S (copy_ctor st v).1 (copy_ctor st v).2 ∧
    WF S (copy_ctor st v).1 v := by
  cases h : v.rep with
  | small es =>
    have heq : copy_ctor st v = (st, ⟨v.count, .small es⟩) := by
      unfold copy_ctor
      rw [h]
    rw [heq]
    obtain ⟨h1, h2⟩ := WF_small hv h
    exact ⟨hst, WF_of_small rfl h1 h2, hv⟩
  | large i =>
    have heq : copy_ctor st v = (make_new_ref st i, ⟨v.count, .large i⟩) := by
      unfold copy_ctor
      rw [h]
    rw [heq]
    obtain ⟨b, hb, hlen, hcap, hrc, hScap⟩ := WF_large hv h
    have hm : (make_new_ref st i).bufs i =
        some ⟨b.capacity, b.refcnt + 1, b.elems⟩ := make_new_ref_bufs_self st hb
    refine ⟨WFstore_make_new_ref hst i, ?_, ?_⟩
    · exact WF_of_large (b := ⟨b.capacity, b.refcnt + 1, b.elems⟩) rfl hm hlen
        hcap (by show 1 ≤ b.refcnt + 1; omega) hScap
    · exact WF_of_large (b := ⟨b.capacity, b.refcnt + 1, b.elems⟩) h hm hlen
        hcap (by show 1 ≤ b.refcnt + 1; omega) hScap

theorem clear_pres {α : Type} {S : Nat} {st : Store α} {v : Vec α}
    (hst : WFstore st) (hv : WF S st v) :
    WFstore (clear st v).1 ∧ WF S (clear st v).1 (clear st v).2 := by
  cases h : v.rep with
  | small es =>
    rw [clear_small_eq h]
    exact ⟨hst, WF_of_small rfl rfl (Nat.zero_le S)⟩
  | large i =>
    obtain ⟨b, hb, hlen, hcap, hrc, hScap⟩ := WF_large hv h
    by_cases h1 : refcntAt st i = 1
    · rw [clear_large_unique_eq h h1]
      have hset : (set_elems st i []).bufs i = some ⟨b.capacity, b.refcnt, []⟩ :=
        set_elems_bufs_self st _ hb
      refine ⟨WFstore_set_elems hst _ _, ?_⟩
      exact WF_of_large (b := ⟨b.capacity, b.refcnt, []⟩) rfl hset rfl
        (Nat.zero_le _) hrc hScap
    · rw [clear_large_shared_eq h h1]
      have hrc2 : 2 ≤ b.refcnt := by
        rw [refcntAt_eq hb] at h1
        omega
      set stR := release_large_data st i with hstR
      have hRi : stR.bufs i = some ⟨b.capacity, b.refcnt - 1, b.elems⟩ := by
        rw [hstR, release_bufs_self_dec st hb hrc2]
      have hRcap : capAt stR i = b.capacity := by
        rw [capAt, bufAt_eq hRi]
      have hWR : WFstore stR := WFstore_release hst i
      have hA2 : (alloc_large_data stR [] (capAt stR i)).2 = stR.next :=
        alloc_snd stR _ _
      have hAnew : (alloc_large_data stR [] (capAt stR i)).1.bufs stR.next =
          some ⟨capAt stR i, 1, []⟩ := alloc_bufs_new stR _ _
      rw [hA2]
      refine ⟨WFstore_alloc hWR _ _, ?_⟩
      refine WF_of_large (b := ⟨capAt stR i, 1, []⟩) rfl hAnew rfl
        (Nat.zero_le _) (le_refl 1) ?_
      show S < capAt stR i
      rw [hRcap]
      exact hScap

theorem swap_pres {α : Type} {S : Nat} {st : Store α} {a b : Vec α}
    (hst : WFstore st) (ha : WF S st a) (hb : WF S st b) :
    WFstore (swap st a b).1 ∧ WF S (swap st a b).1 (swap st a b).2.1 ∧
    WF S (swap st a b).1 (swap st a b).2.2 := by
  cases hra : a.rep with
  | small ea =>
    cases hrb : b.rep with
    | small eb =>
      rw [swap_small_small_eq hra hrb, smallSwapLists_eq]
      obtain ⟨ha1, ha2⟩ := WF_small ha hra
      obtain ⟨hb1, hb2⟩ := WF_small hb hrb
      exact ⟨hst, WF_of_small rfl hb1 hb2, WF_of_small rfl ha1 ha2⟩
    | large j =>
      obtain ⟨bj, hbj, hjl, hjc, hjr, hjS⟩ := WF_large hb hrb
      rw [swap_small_large_eq hra hrb, swap_mixed_eq hbj hjr]
      obtain ⟨ha1, ha2⟩ := WF_small ha hra
      exact ⟨hst, WF_of_large rfl hbj hjl hjc hjr hjS,
        WF_of_small rfl ha1 ha2⟩
  | large i =>
    cases hrb : b.rep with
    | small eb =>
      obtain ⟨bi, hbi, hil, hic, hir, hiS⟩ := WF_large ha hra
      rw [swap_large_small_eq hra hrb, swap_mixed_eq hbi hir]
      obtain ⟨hb1, hb2⟩ := WF_small hb hrb
      exact ⟨hst, WF_of_small rfl hb1 hb2,
        WF_of_large rfl hbi hil hic hir hiS⟩
    | large j =>
      obtain ⟨bi, hbi, hil, hic, hir, hiS⟩ := WF_large ha hra
      obtain ⟨bj, hbj, hjl, hjc, hjr, hjS⟩ := WF_large hb hrb
      rw [swap_large_large_eq hra hrb]
      exact ⟨hst, WF_of_large rfl hbj hjl hjc hjr hjS,
        WF_of_large rfl hbi hil hic hir hiS⟩

theorem assign_pres {α : Type} {S : Nat} {st : Store α} {target other : Vec α}
    (hst : WFstore st) (ht : WF S st target) (ho : WF S st other) :
    WFstore (assign st target other).1 ∧
    WF S (assign st target other).1 (assign st target other).2 := by
  cases hrt : target.rep with
  | small tes =>
    cases hro : other.rep with
    | small oes =>
      have heq : assign st target other = (st, ⟨other.count, .small oes⟩) := by
        unfold assign copy_ctor
        rw [hro]
        simp only
        rw [swap_small_small_eq hrt (b := Vec.mk other.count (Rep.small oes)) rfl,
          smallSwapLists_eq]
        unfold destroy
        rfl
      rw [heq]
      obtain ⟨ho1, ho2⟩ := WF_small ho hro
      exact ⟨hst, WF_of_small rfl ho1 ho2⟩
    | large j =>
      obtain ⟨bj, hbj, hjl, hjc, hjr, hjS⟩ := WF_large ho hro
      have hm : (make_new_ref st j).bufs j =
          some ⟨bj.capacity, bj.refcnt + 1, bj.elems⟩ :=
        make_new_ref_bufs_self st hbj
      have heq : assign st target other =
          (swap_mixed (make_new_ref st j) j, ⟨other.count, .large j⟩) := by
        unfold assign copy_ctor
        rw [hro]
        simp only
        rw [swap_small_large_eq hrt (b := Vec.mk other.count (Rep.large j)) rfl]
        unfold destroy
        rfl
      rw [heq, swap_mixed_eq hm (by show 1 ≤ bj.refcnt + 1; omega)]
      refine ⟨WFstore_make_new_ref hst j, ?_⟩
      exact WF_of_large (b := ⟨bj.capacity, bj.refcnt + 1, bj.elems⟩) rfl hm
        hjl hjc (by show 1 ≤ bj.refcnt + 1; omega) hjS
  | large i =>
    cases hro : other.rep with
    | small oes =>
      obtain ⟨bi, hbi, hil, hic, hir, hiS⟩ := WF_large ht hrt
      have heq : assign st target other =
          (release_large_data (swap_mixed st i) i, ⟨other.count, .small oes⟩) := by
        unfold assign copy_ctor
        rw [hro]
        simp only
        rw [swap_large_small_eq hrt (b := Vec.mk other.count (Rep.small oes)) rfl]
        unfold destroy
        rfl
      rw [heq, swap_mixed_eq hbi hir]
      obtain ⟨ho1, ho2⟩ := WF_small ho hro
      exact ⟨WFstore_release hst i, WF_of_small rfl ho1 ho2⟩
    | large j =>
      obtain ⟨bj, hbj, hjl, hjc, hjr, hjS⟩ := WF_large ho hro
      have hm : (make_new_ref st j).bufs j =
          some ⟨bj.capacity, bj.refcnt + 1, bj.elems⟩ :=
        make_new_ref_bufs_self st hbj
      have heq : assign st target other =
          (release_large_data (make_new_ref st j) i, ⟨other.count, .large j⟩) := by
        unfold assign copy_ctor
        rw [hro]
        simp only
        rw [swap_large_large_eq hrt (b := Vec.mk other.count (Rep.large j)) rfl]
        unfold destroy
        rfl
      rw [heq]
      refine ⟨WFstore_release (WFstore_make_new_ref hst j) i, ?_⟩
      by_cases hij : i = j
      · subst hij
        have hrel : (release_large_data (make_new_ref st i) i).bufs i =
            some ⟨bj.capacity, bj.refcnt, bj.elems⟩ := by
          have := release_bufs_self_dec (make_new_ref st i) hm
            (by show 2 ≤ bj.refcnt + 1; omega)
          simpa using this
        exact WF_of_large (b := ⟨bj.capacity, bj.refcnt, bj.elems⟩) rfl hrel
          hjl hjc hjr hjS
      · have hrel : (release_large_data (make_new_ref st j) i).bufs j =
            some ⟨bj.capacity, bj.refcnt + 1, bj.elems⟩ := by
          rw [release_bufs_ne _ (fun hh => hij hh.symm)]
          exact hm
        exact WF_of_large (b := ⟨bj.capacity, bj.refcnt + 1, bj.elems⟩) rfl hrel
          hjl hjc (by show 1 ≤ bj.refcnt + 1; omega) hjS

theorem reserve_pres {α : Type} {S : Nat} {st : Store α} {v : Vec α} (n : Nat)
    (hst : WFstore st) (hv : WF S st v) :
    WFstore (reserve S st v n).1 ∧ WF S (reserve S st v n).1 (reserve S st v n).2 := by
  by_cases hcond : (is_unique st v = false ∧ v.count < n) ∨ capacity S st v < n
  · have heq : reserve S st v n = resize S st v n := by
      unfold reserve
      rw [if_pos hcond]
    have hcnt : v.count ≤ n := by
      have hle := count_le_capacity hv
      rcases hcond with ⟨_, hlt⟩ | hlt
      · omega
      · omega
    obtain ⟨_, _, r3, r4, _, _⟩ := resize_spec S n hst hv hcnt
    rw [heq]
    exact ⟨r3, r4⟩
  · have heq : reserve S st v n = (st, v) := by
      unfold reserve
      rw [if_neg hcond]
    rw [heq]
    exact ⟨hst, hv⟩

theorem shrink_pres {α : Type} {S : Nat} {st : Store α} {v : Vec α}
    (hst : WFstore st) (hv : WF S st v) :
    WFstore (shrink_to_fit S st v).1 ∧
    WF S (shrink_to_fit S st v).1 (shrink_to_fit S st v).2 := by
  cases h : v.rep with
  | small es =>
    rw [shrink_small_eq h]
    exact ⟨hst, hv⟩
  | large i =>
    rw [shrink_large_eq h]
    by_cases hne : v.count ≠ capAt st i
    · rw [if_pos hne]
      obtain ⟨_, _, r3, r4, _, _⟩ := resize_spec S v.count hst hv (le_refl _)
      exact ⟨r3, r4⟩
    · rw [if_neg hne]
      exact ⟨hst, hv⟩

/-- C9.  Representation invariant preserved by every public operation: the
well-formedness predicate `WF` — `count ≤ capacity`, with `capacity`
being `SMALL_SIZE` in inline mode and the referenced heap buffer's
`capacity_` in shared mode, the buffer allocated with a positive refcount and
a capacity exceeding `SMALL_SIZE`, and the stored count matching the number
of live elements — is preserved by copy-construction, `push_back`,
`pop_back`, mutable `operator[]` assignment, `insert`, `erase`, `clear`,
`reserve`, `shrink_to_fit`, `swap` and copy-assignment, along with store
sanity (`WFstore`).  The agreement of the mode tag with the active union
member is structural in this model: a `Vec` holds either inline elements or a
buffer reference, never both. -/
theorem C9_invariant_preserved_by_public_ops {α : Type} (S : Nat) :
    (∀ (st : Store α) (v : Vec α), WFstore st → WF S st v →
      WFstore (copy_ctor st v).1 ∧
      WF S (copy_ctor st v).1 (copy_ctor st v).2 ∧
      WF S (copy_ctor st v).1 v) ∧
    (∀ (st : Store α) (v : Vec α) (x : α), WFstore st → WF S st v →
      WFstore (push_back S st v x).1 ∧
      WF S (push_back S st v x).1 (push_back S st v x).2) ∧
    (∀ (st : Store α) (v : Vec α), WFstore st → WF S st v →
      WFstore (pop_back st v).1 ∧ WF S (pop_back st v).1 (pop_back st v).2) ∧
    (∀ (st : Store α) (v : Vec α) (i : Nat) (y : α), WFstore st → WF S st v →
      WFstore (write st v i y).1 ∧ WF S (write st v i y).1 (write st v i y).2) ∧
    (∀ (st : Store α) (v : Vec α) (ind : Nat) (x : α), WFstore st → WF S st v →
      WFstore (insert S st v ind x).1 ∧
      WF S (insert S st v ind x).1 (insert S st v ind x).2.1) ∧
    (∀ (st : Store α) (v : Vec α) (ind len : Nat), WFstore st → WF S st v →
      WFstore (erase st v ind len).1 ∧
      WF S (erase st v ind len).1 (erase st v ind len).2.1) ∧
    (∀ (st : Store α) (v : Vec α), WFstore st → WF S st v →
      WFstore (clear st v).1 ∧ WF S (clear st v).1 (clear st v).2) ∧
    (∀ (st : Store α) (v : Vec α) (n : Nat), WFstore st → WF S st v →
      WFstore (reserve S st v n).1 ∧
      WF S (reserve S st v n).1 (reserve S st v n).2) ∧
    (∀ (st : Store α) (v : Vec α), WFstore st → WF S st v →
      WFstore (shrink_to_fit S st v).1 ∧
      WF S (shrink_to_fit S st v).1 (shrink_to_fit S st v).2) ∧
    (∀ (st : Store α) (a b : Vec α), WFstore st → WF S st a → WF S st b →
      WFstore (swap st a b).1 ∧ WF S (swap st a b).1 (swap st a b).2.1 ∧
      WF S (swap st a b).1 (swap st a b).2.2) ∧
    (∀ (st : Store α) (target other : Vec α), WFstore st →
      WF S st target → WF S st other →
      WFstore (assign st target other).1 ∧
      WF S (assign st target other).1 (assign st target other).2) := by
  refine ⟨?_, ?_, ?_, ?_, ?_, ?_, ?_, ?_, ?_, ?_, ?_⟩
  · intro st v hst hv
    exact copy_ctor_pres hst hv
  · intro st v x hst hv
    obtain ⟨_, _, h3, h4, _⟩ := push_back_spec S x hst hv
    exact ⟨h3, h4⟩
  · intro st v hst hv
    have hle := count_le_capacity hv
    have hlen : ((obs st v).take (v.count - 1)).length = v.count - 1 := by
      rw [List.length_take, obs_length hv]
      omega
    exact mutate_WF S (fun es => es.take (v.count - 1)) (v.count - 1) hst hv
      hlen (by omega)
  · intro st v i y hst hv
    have hle := count_le_capacity hv
    have hlen : ((obs st v).set i y).length = v.count := by
      rw [List.length_set, obs_length hv]
    obtain ⟨hw1, hw2⟩ :=
      mutate_WF S (fun es => es.set i y) v.count hst hv hlen hle
    have hmc := (mutate_spec S (fun es => es.set i y) hst hv).1
    refine ⟨hw1, ?_⟩
    have hrw : (write st v i y).2 =
        (⟨v.count, (mutate st v (fun es => es.set i y)).2.rep⟩ : Vec α) := by
      show (mutate st v (fun es => es.set i y)).2 = _
      rw [← hmc]
    rw [hrw]
    exact hw2
  · intro st v ind x hst hv
    obtain ⟨_, hcnt, hwfs, hwf, _⟩ := push_back_spec S x hst hv
    have hmc := (mutate_spec S
      (fun es => rotate_into ind v.count es) hwfs hwf).1
    have hlen : (rotate_into ind v.count
        (obs (push_back S st v x).1 (push_back S st v x).2)).length =
        (push_back S st v x).2.count := by
      rw [rotate_into_length, obs_length hwf]
    obtain ⟨hw1, hw2⟩ := mutate_WF S (fun es => rotate_into ind v.count es)
      (push_back S st v x).2.count hwfs hwf hlen (count_le_capacity hwf)
    refine ⟨hw1, ?_⟩
    have hrw : (insert S st v ind x).2.1 =
        (⟨(push_back S st v x).2.count,
          (mutate (push_back S st v x).1 (push_back S st v x).2
            (fun es => rotate_into ind v.count es)).2.rep⟩ : Vec α) := by
      show (mutate (push_back S st v x).1 (push_back S st v x).2
        (fun es => rotate_into ind v.count es)).2 = _
      rw [← hmc]
    rw [hrw]
    exact hw2
  · intro st v ind len hst hv
    have hle := count_le_capacity hv
    have hlen : ((erase_loop (α := α) len (ind + len) (v.count - (ind + len))
        (obs st v, v.count)).1.take (v.count - len)).length =
        v.count - len := by
      rw [List.length_take, erase_loop_length, obs_length hv]
      omega
    exact mutate_WF S (fun es => (erase_loop len (ind + len)
      (v.count - (ind + len)) (es, v.count)).1.take (v.count - len))
      (v.count - len) hst hv hlen (by omega)
  · intro st v hst hv
    exact clear_pres hst hv
  · intro st v n hst hv
    exact reserve_pres n hst hv
  · intro st v hst hv
    exact shrink_pres hst hv
  · intro st a b hst ha hb
    exact swap_pres hst ha hb
  · intro st target other hst ht ho
    exact assign_pres hst ht ho

/-! ### Concrete witnesses -/

/-- A store with one uniquely owned heap buffer (capacity 3, two live
elements). -/
def cowStore : Store Nat := ⟨1, updBufs (fun _ => none) 0 (some ⟨3, 1, [1, 2]⟩)⟩

theorem WFstore_cowStore : WFstore cowStore := by
  intro i hi
  have h1 : 1 ≤ i := hi
  show updBufs (fun _ => none) 0 (some ⟨3, 1, [1, 2]⟩) i = none
  unfold updBufs
  rw [if_neg (by omega)]

/-- A shared container backed by `cowStore`'s buffer 0. -/
def cowVec : Vec Nat := ⟨2, .large 0⟩

theorem C1_witness :
    WFstore cowStore ∧ WF 1 cowStore cowVec ∧
    (obs (push_back 1 (copy_ctor cowStore cowVec).1
        (copy_ctor cowStore cowVec).2 9).1 cowVec = obs cowStore cowVec ∧
      obs (pop_back (copy_ctor cowStore cowVec).1
        (copy_ctor cowStore cowVec).2).1 cowVec = obs cowStore cowVec ∧
      obs (insert 1 (copy_ctor cowStore cowVec).1
        (copy_ctor cowStore cowVec).2 1 9).1 cowVec = obs cowStore cowVec ∧
      obs (erase (copy_ctor cowStore cowVec).1
        (copy_ctor cowStore cowVec).2 1 1).1 cowVec = obs cowStore cowVec ∧
      obs (clear (copy_ctor cowStore cowVec).1
        (copy_ctor cowStore cowVec).2).1 cowVec = obs cowStore cowVec ∧
      obs (write (copy_ctor cowStore cowVec).1
        (copy_ctor cowStore cowVec).2 0 8).1 cowVec = obs cowStore cowVec) :=
  ⟨WFstore_cowStore, by decide,
    C1_cow_value_semantics 1 cowStore cowVec 9 8 1 1 0 WFstore_cowStore
      (by decide)⟩

theorem C2_witness :
    ((1 : Fuel) < [5, 6, 7].length ∧
      safe_init_arrayF (99 : Nat) 1 [5, 6, 7] =
        .error (99, (List.range 1).reverse)) ∧
    ([(5 : Nat), 6].length ≤ 3 ∧
      safe_init_arrayF (99 : Nat) 3 [5, 6] = .ok ([5, 6], 3 - [(5 : Nat), 6].length)) ∧
    alloc_large_dataF (99 : Nat) 0 (emptyStore (α := Nat)) [4] 7 =
      .error (99, (List.range 0).reverse,
        ⟨(emptyStore (α := Nat)).next + 1, (emptyStore (α := Nat)).bufs⟩) ∧
    copy_ctorF (99 : Nat) 0 (emptyStore (α := Nat)) ⟨1, .small [5]⟩ =
      .error (99, (List.range 0).reverse) ∧
    dataF (99 : Nat) 1 reserveStore reserveVec =
      .error (99, (List.range 1).reverse,
        ⟨reserveStore.next + 1, reserveStore.bufs⟩, reserveVec) ∧
    (∃ tr st1 v1, push_backF 1 (99 : Nat) 2 reserveStore reserveVec 4 =
        .error (99, tr, st1, v1) ∧
      obs st1 v1 = obs reserveStore reserveVec ∧ size v1 = size reserveVec) :=
  ⟨⟨by decide, C2_strong_guarantee_on_copy_failure.1 Nat Nat 99 1 [5, 6, 7]
      (by decide)⟩,
    ⟨by decide, C2_strong_guarantee_on_copy_failure.2.1 Nat Nat 99 3 [5, 6]
      (by decide)⟩,
    C2_strong_guarantee_on_copy_failure.2.2.1 Nat Nat 99 0 emptyStore [4] 7
      (by decide),
    C2_strong_guarantee_on_copy_failure.2.2.2.1 Nat Nat 99 0 emptyStore
      ⟨1, .small [5]⟩ [5] rfl (by decide),
    C2_strong_guarantee_on_copy_failure.2.2.2.2.1 Nat Nat 1 99 1 reserveStore
      reserveVec 0 rfl (by decide) (by decide) (by decide),
    C2_strong_guarantee_on_copy_failure.2.2.2.2.2 Nat Nat 1 99 2 reserveStore
      reserveVec 4 WFstore_reserveStore (by decide) (by decide)
      (Or.inr (Or.inl (by decide)))⟩

theorem C3_witness :
    WFstore cowStore ∧ WF 1 cowStore cowVec ∧
    (obs (shrink_to_fit 1 cowStore cowVec).1
        (shrink_to_fit 1 cowStore cowVec).2 = obs cowStore cowVec ∧
      size (shrink_to_fit 1 cowStore cowVec).2 = size cowVec ∧
      capacity 1 (shrink_to_fit 1 cowStore cowVec).1
        (shrink_to_fit 1 cowStore cowVec).2 = max (size cowVec) 1 ∧
      is_small (shrink_to_fit 1 cowStore cowVec).2 =
        decide (size cowVec ≤ 1)) :=
  ⟨WFstore_cowStore, by decide,
    C3_amended_shrink_to_fit 1 cowStore cowVec WFstore_cowStore (by decide)⟩

theorem C4_witness :
    WFstore cowStore ∧ WF 1 cowStore cowVec ∧
    obs (swap cowStore cowVec cowVec).1 (swap cowStore cowVec cowVec).2.1 =
      obs cowStore cowVec ∧
    swapF (9 : Nat) 5 cowStore cowVec cowVec =
      .ok (cowStore, ⟨2, .large 0⟩, ⟨2, .large 0⟩, 5) :=
  ⟨WFstore_cowStore, by decide,
    (C4_amended_swap_exchanges 1 cowStore cowVec cowVec WFstore_cowStore
      (by decide) (by decide)).1,
    (C4_amended_swap_exchanges 1 cowStore cowVec cowVec WFstore_cowStore
      (by decide) (by decide)).2.2.2.2 0 0 rfl rfl Nat 9 5⟩

theorem C5_witness :
    WFstore (emptyStore (α := Nat)) ∧ WF 1 (emptyStore (α := Nat)) ⟨1, .small [3]⟩ ∧
    obs (push_back 1 (emptyStore (α := Nat)) ⟨1, .small [3]⟩ 4).1
      (push_back 1 (emptyStore (α := Nat)) ⟨1, .small [3]⟩ 4).2 =
      obs (emptyStore (α := Nat)) ⟨1, .small [3]⟩ ++ [4] ∧
    size (push_back 1 (emptyStore (α := Nat)) ⟨1, .small [3]⟩ 4).2 =
      size (⟨1, .small [3]⟩ : Vec Nat) + 1 ∧
    is_small (push_back 1 (emptyStore (α := Nat)) ⟨1, .small [3]⟩ 4).2 = false ∧
    capacity 1 (push_back 1 (emptyStore (α := Nat)) ⟨1, .small [3]⟩ 4).1
      (push_back 1 (emptyStore (α := Nat)) ⟨1, .small [3]⟩ 4).2 =
      2 * capacity 1 (emptyStore (α := Nat)) ⟨1, .small [3]⟩ + 1 :=
  ⟨WFstore_empty, by decide,
    (C5_push_back_growth_and_content 1 emptyStore ⟨1, .small [3]⟩ 4
      WFstore_empty (by decide)).1,
    (C5_push_back_growth_and_content 1 emptyStore ⟨1, .small [3]⟩ 4
      WFstore_empty (by decide)).2.1,
    (C5_push_back_growth_and_content 1 emptyStore ⟨1, .small [3]⟩ 4
      WFstore_empty (by decide)).2.2 (by decide)⟩

theorem C6_witness :
    WFstore reserveStore ∧ WF 1 reserveStore reserveVec ∧
    4 ≤ capacity 1 (reserve 1 reserveStore reserveVec 4).1
      (reserve 1 reserveStore reserveVec 4).2 ∧
    capacity 1 (reserve 1 reserveStore reserveVec 4).1
      (reserve 1 reserveStore reserveVec 4).2 = (if 4 ≤ 1 then 1 else 4) ∧
    obs (reserve 1 reserveStore reserveVec 4).1
      (reserve 1 reserveStore reserveVec 4).2 = obs reserveStore reserveVec ∧
    size (reserve 1 reserveStore reserveVec 4).2 = size reserveVec :=
  ⟨WFstore_reserveStore, by decide,
    (C6_amended_reserve 1 reserveStore reserveVec 4 WFstore_reserveStore
      (by decide)).1,
    (C6_amended_reserve 1 reserveStore reserveVec 4 WFstore_reserveStore
      (by decide)).2.2.2.1 (Or.inr (by decide)),
    (C6_amended_reserve 1 reserveStore reserveVec 4 WFstore_reserveStore
      (by decide)).2.2.2.2.1,
    (C6_amended_reserve 1 reserveStore reserveVec 4 WFstore_reserveStore
      (by decide)).2.2.2.2.2⟩

theorem C7_witness :
    WFstore reserveStore ∧ WF 1 reserveStore reserveVec ∧
    size (clear reserveStore reserveVec).2 = 0 ∧
    obs (clear reserveStore reserveVec).1 (clear reserveStore reserveVec).2 = [] ∧
    capacity 1 (clear reserveStore reserveVec).1
      (clear reserveStore reserveVec).2 = capacity 1 reserveStore reserveVec ∧
    ((clear reserveStore reserveVec).2.rep = .large reserveStore.next ∧
      elemsAt (clear reserveStore reserveVec).1 reserveStore.next = [] ∧
      refcntAt (clear reserveStore reserveVec).1 reserveStore.next = 1 ∧
      refcntAt (clear reserveStore reserveVec).1 0 =
        refcntAt reserveStore 0 - 1) :=
  ⟨WFstore_reserveStore, by decide,
    (C7_clear_preserves_capacity 1 reserveStore reserveVec WFstore_reserveStore
      (by decide)).1,
    (C7_clear_preserves_capacity 1 reserveStore reserveVec WFstore_reserveStore
      (by decide)).2.1,
    (C7_clear_preserves_capacity 1 reserveStore reserveVec WFstore_reserveStore
      (by decide)).2.2.1,
    (C7_clear_preserves_capacity 1 reserveStore reserveVec WFstore_reserveStore
      (by decide)).2.2.2.2 (by decide) 0 rfl⟩

theorem C8_witness :
    WFstore (emptyStore (α := Nat)) ∧
    WF 3 (emptyStore (α := Nat)) ⟨2, .small [1, 2]⟩ ∧ (1 : Nat) ≤ 2 ∧
    (obs (insert 3 (emptyStore (α := Nat)) ⟨2, .small [1, 2]⟩ 1 9).1
        (insert 3 (emptyStore (α := Nat)) ⟨2, .small [1, 2]⟩ 1 9).2.1 =
      insert_spec (obs (emptyStore (α := Nat)) ⟨2, .small [1, 2]⟩) 1 9 ∧
      size (insert 3 (emptyStore (α := Nat)) ⟨2, .small [1, 2]⟩ 1 9).2.1 =
        size (⟨2, .small [1, 2]⟩ : Vec Nat) + 1 ∧
      (insert 3 (emptyStore (α := Nat)) ⟨2, .small [1, 2]⟩ 1 9).2.2 = 1) :=
  ⟨WFstore_empty, by decide, by decide,
    C8_insert_refines_push_back_rotate 3 emptyStore ⟨2, .small [1, 2]⟩ 1 9
      WFstore_empty (by decide) (by decide)⟩

theorem C9_witness :
    (WFstore (copy_ctor (emptyStore (α := Nat)) ⟨1, .small [3]⟩).1 ∧
      WF 1 (copy_ctor (emptyStore (α := Nat)) ⟨1, .small [3]⟩).1
        (copy_ctor (emptyStore (α := Nat)) ⟨1, .small [3]⟩).2 ∧
      WF 1 (copy_ctor (emptyStore (α := Nat)) ⟨1, .small [3]⟩).1
        ⟨1, .small [3]⟩) ∧
    (WFstore (push_back 1 (emptyStore (α := Nat)) ⟨1, .small [3]⟩ 4).1 ∧
      WF 1 (push_back 1 (emptyStore (α := Nat)) ⟨1, .small [3]⟩ 4).1
        (push_back 1 (emptyStore (α := Nat)) ⟨1, .small [3]⟩ 4).2) ∧
    (WFstore (pop_back cowStore cowVec).1 ∧
      WF 1 (pop_back cowStore cowVec).1 (pop_back cowStore cowVec).2) ∧
    (WFstore (write cowStore cowVec 0 8).1 ∧
      WF 1 (write cowStore cowVec 0 8).1 (write cowStore cowVec 0 8).2) ∧
    (WFstore (insert 1 cowStore cowVec 1 9).1 ∧
      WF 1 (insert 1 cowStore cowVec 1 9).1 (insert 1 cowStore cowVec 1 9).2.1) ∧
    (WFstore (erase cowStore cowVec 0 1).1 ∧
      WF 1 (erase cowStore cowVec 0 1).1 (erase cowStore cowVec 0 1).2.1) ∧
    (WFstore (clear cowStore cowVec).1 ∧
      WF 1 (clear cowStore cowVec).1 (clear cowStore cowVec).2) ∧
    (WFstore (reserve 1 cowStore cowVec 5).1 ∧
      WF 1 (reserve 1 cowStore cowVec 5).1 (reserve 1 cowStore cowVec 5).2) ∧
    (WFstore (shrink_to_fit 1 cowStore cowVec).1 ∧
      WF 1 (shrink_to_fit 1 cowStore cowVec).1
        (shrink_to_fit 1 cowStore cowVec).2) ∧
    (WFstore (swap cowStore cowVec ⟨0, .small []⟩).1 ∧
      WF 1 (swap cowStore cowVec ⟨0, .small []⟩).1
        (swap cowStore cowVec ⟨0, .small []⟩).2.1 ∧
      WF 1 (swap cowStore cowVec ⟨0, .small []⟩).1
        (swap cowStore cowVec ⟨0, .small []⟩).2.2) ∧
    (WFstore (assign cowStore ⟨0, .small []⟩ cowVec).1 ∧
      WF 1 (assign cowStore ⟨0, .small []⟩ cowVec).1
        (assign cowStore ⟨0, .small []⟩ cowVec).2) :=
  ⟨(C9_invariant_preserved_by_public_ops 1).1 emptyStore ⟨1, .small [3]⟩
      WFstore_empty (by decide),
    (C9_invariant_preserved_by_public_ops 1).2.1 emptyStore ⟨1, .small [3]⟩ 4
      WFstore_empty (by decide),
    (C9_invariant_preserved_by_public_ops 1).2.2.1 cowStore cowVec
      WFstore_cowStore (by decide),
    (C9_invariant_preserved_by_public_ops 1).2.2.2.1 cowStore cowVec 0 8
      WFstore_cowStore (by decide),
    (C9_invariant_preserved_by_public_ops 1).2.2.2.2.1 cowStore cowVec 1 9
      WFstore_cowStore (by decide),
    (C9_invariant_preserved_by_public_ops 1).2.2.2.2.2.1 cowStore cowVec 0 1
      WFstore_cowStore (by decide),
    (C9_invariant_preserved_by_public_ops 1).2.2.2.2.2.2.1 cowStore cowVec
      WFstore_cowStore (by decide),
    (C9_invariant_preserved_by_public_ops 1).2.2.2.2.2.2.2.1 cowStore cowVec 5
      WFstore_cowStore (by decide),
    (C9_invariant_preserved_by_public_ops 1).2.2.2.2.2.2.2.2.1 cowStore cowVec
      WFstore_cowStore (by decide),
    (C9_invariant_preserved_by_public_ops 1).2.2.2.2.2.2.2.2.2.1 cowStore
      cowVec ⟨0, .small []⟩ WFstore_cowStore (by decide) (by decide),
    (C9_invariant_preserved_by_public_ops 1).2.2.2.2.2.2.2.2.2.2 cowStore
      ⟨0, .small []⟩ cowVec WFstore_cowStore (by decide) (by decide)⟩

theorem C10_witness :
    (1 : Nat) + 1 ≤ size (⟨3, .small [1, 2, 3]⟩ : Vec Nat) ∧
    size (erase (emptyStore (α := Nat)) ⟨3, .small [1, 2, 3]⟩ 1 1).2.1 =
      size (⟨3, .small [1, 2, 3]⟩ : Vec Nat) - 1 ∧
    (erase (emptyStore (α := Nat)) ⟨3, .small [1, 2, 3]⟩ 1 1).2.2 =
      (size (⟨3, .small [1, 2, 3]⟩ : Vec Nat) - 1) - 1 :=
  ⟨by decide,
    (C10_erase_returned_iterator emptyStore ⟨3, .small [1, 2, 3]⟩ 1 1
      (by decide)).1,
    (C10_erase_returned_iterator emptyStore ⟨3, .small [1, 2, 3]⟩ 1 1
      (by decide)).2.1 (by decide)⟩

end Socow
